import Mathlib

/-!
Verification of the telegram-marketing-audit-bot repository.

We shallowly embed the pure logic of the repository (URL normalization,
pricing-link discovery, the content-bundle fetcher, the LLM reply mapping,
the spreadsheet row model, the SQLite-backed limit/pending-result storage,
the persistence service and the audit orchestrator) as executable Lean
definitions, and prove the frozen claims about them.

External effects (HTTP, the OpenAI client, gspread, the SQLite driver) are
modelled as explicit environments/state; Python standard-library functions
used by the code (`str.strip`, `str.lower`, `urllib.parse.urlparse`,
`urlunparse`, `urljoin`, `json.loads`) are modelled faithfully for the
character sets the program manipulates (ASCII plus the Cyrillic letters used
by the keyword lists); each model notes its scope in its doc comment.
-/

namespace Bot

/-! ### Python string primitives -/

/-- Model of Python `str.strip()` whitespace: the ASCII whitespace characters
(`' '`, `\t`, `\n`, `\r`, `\x0b`, `\x0c`).  (CPython also strips rarer Unicode
space code points, which the program's inputs do not contain.) -/
def pyWs (c : Char) : Bool :=
  c = ' ' || c = '\t' || c = '\n' || c = '\r' || c = '\x0b' || c = '\x0c'

/-- `str.strip()` on a character list. -/
def stripL (l : List Char) : List Char :=
  ((l.dropWhile pyWs).reverse.dropWhile pyWs).reverse

/-- Model of Python `str.lower()` on one character: ASCII `A`-`Z`
(code points 65-90) and the Cyrillic letters `А`-`Я` (1040-1071) and `Ё`
(1025) — the only non-ASCII letters appearing in the program's keyword and
header lists — are lowered; everything else is kept. -/
def pyToLower (c : Char) : Char :=
  if 65 ≤ c.toNat && c.toNat ≤ 90 then Char.ofNat (c.toNat + 32)
  else if 1040 ≤ c.toNat && c.toNat ≤ 1071 then Char.ofNat (c.toNat + 32)
  else if c.toNat = 1025 then Char.ofNat 1105
  else c

/-- `str.lower()` on a character list. -/
def lowerL (l : List Char) : List Char := l.map pyToLower

/-- `a.startswith(b)` on character lists. -/
def isPrefixL (pre l : List Char) : Bool :=
  match pre, l with
  | [], _ => true
  | _ :: _, [] => false
  | p :: ps, c :: cs => p = c && isPrefixL ps cs

/-- Python substring containment `needle in hay` on character lists. -/
def containsSub (hay needle : List Char) : Bool :=
  match hay with
  | [] => isPrefixL needle []
  | _ :: tl => isPrefixL needle hay || containsSub tl needle

/-- String wrapper for `str.strip()`. -/
def pyStrip (s : String) : String := String.mk (stripL s.data)

/-- String wrapper for `str.lower()`. -/
def pyLower (s : String) : String := String.mk (lowerL s.data)

/-! ### Model of `urllib.parse` (CPython)

`urlsplit`/`urlparse`/`urlunparse`/`urljoin` as implemented in current
CPython, restricted to the behaviours the program exercises: tab/CR/LF
removal, scheme detection, `//netloc` splitting at `/?#`, fragment-then-query
splitting, `;`-params splitting of the path, and RFC-3986 reference
resolution in `urljoin`. -/

/-- The characters at which the netloc of a URL ends. -/
def stopC (c : Char) : Bool := c = '/' || c = '?' || c = '#'

/-- The characters CPython's `urlsplit` removes from a URL before parsing. -/
def unsafeC (c : Char) : Bool := c = '\t' || c = '\r' || c = '\n'

def asciiAlpha (c : Char) : Bool :=
  (97 ≤ c.toNat && c.toNat ≤ 122) || (65 ≤ c.toNat && c.toNat ≤ 90)

def asciiAlnum (c : Char) : Bool :=
  asciiAlpha c || (48 ≤ c.toNat && c.toNat ≤ 57)

/-- Characters allowed in a URL scheme after the first one. -/
def schemeChar (c : Char) : Bool := asciiAlnum c || c = '+' || c = '-' || c = '.'

/-- A candidate scheme prefix is valid when it starts with an ASCII letter and
contains only scheme characters. -/
def validScheme (l : List Char) : Bool :=
  match l with
  | [] => false
  | c :: cs => asciiAlpha c && cs.all schemeChar

/-- Split a list at the first occurrence of `c` (the separator is dropped);
when `c` is absent the second component is empty. -/
def splitOnFirst (c : Char) (l : List Char) : List Char × List Char :=
  (l.takeWhile (· ≠ c), (l.dropWhile (· ≠ c)).drop 1)

/-- The five components produced by `urlsplit`. -/
structure SplitParts where
  scheme : List Char
  netloc : List Char
  path : List Char
  query : List Char
  fragment : List Char
deriving DecidableEq, Repr

/-- Model of CPython `urllib.parse.urlsplit(url, scheme=dflt)`. -/
def pyUrlsplit (dflt : List Char) (url0 : List Char) : SplitParts :=
  let url := url0.filter (fun c => !unsafeC c)
  let pre := url.takeWhile (· ≠ ':')
  let sr : List Char × List Char :=
    if pre.length < url.length && validScheme pre
    then (lowerL pre, url.drop (pre.length + 1))
    else (dflt, url)
  let nr : List Char × List Char :=
    if sr.2.take 2 = ['/', '/'] then
      ((sr.2.drop 2).takeWhile (fun c => !stopC c),
       (sr.2.drop 2).dropWhile (fun c => !stopC c))
    else ([], sr.2)
  let rf := splitOnFirst '#' nr.2
  let pq := splitOnFirst '?' rf.1
  ⟨sr.1, nr.1, pq.1, pq.2, rf.2⟩

/-- Helper of `pySplitParams`: split the `;params` off the last path
segment `seg` of `p` (CPython's `url.find(';', url.rfind('/'))`). -/
def pySplitSeg (p seg : List Char) : List Char × List Char :=
  if seg.contains ';' then
    (p.take (p.length - seg.length) ++ seg.takeWhile (fun c => decide (c ≠ ';')),
     (seg.dropWhile (fun c => decide (c ≠ ';'))).drop 1)
  else (p, [])

/-- CPython `_splitparams`: split `;params` off the last path segment. -/
def pySplitParams (p : List Char) : List Char × List Char :=
  if p.contains '/' then
    pySplitSeg p ((p.reverse.takeWhile (fun c => decide (c ≠ '/'))).reverse)
  else if p.contains ';' then
    (p.takeWhile (fun c => decide (c ≠ ';')),
     (p.dropWhile (fun c => decide (c ≠ ';'))).drop 1)
  else (p, [])

/-- The six components produced by `urlparse`. -/
structure UrlParts where
  scheme : List Char
  netloc : List Char
  path : List Char
  params : List Char
  query : List Char
  fragment : List Char
deriving DecidableEq, Repr

/-- Model of CPython `urllib.parse.urlparse(url, scheme=dflt)`. -/
def pyUrlparse (dflt : List Char) (url : List Char) : UrlParts :=
  let s := pyUrlsplit dflt url
  let pp := pySplitParams s.path
  ⟨s.scheme, s.netloc, pp.1, pp.2, s.query, s.fragment⟩

/-- CPython `urllib.parse.uses_netloc` (needed by `urlunsplit`). -/
def usesNetloc : List (List Char) :=
  ["".data, "ftp".data, "http".data, "gopher".data, "nntp".data, "telnet".data,
   "imap".data, "wais".data, "file".data, "mms".data, "https".data,
   "shttp".data, "snews".data, "prospero".data, "rtsp".data, "rtspu".data,
   "rsync".data, "svn".data, "svn+ssh".data, "sftp".data, "nfs".data,
   "git".data, "git+ssh".data, "ws".data, "wss".data]

/-- Model of CPython 3.11 `urllib.parse.urlunsplit`. -/
def pyUrlunsplit (scheme netloc path query fragment : List Char) : List Char :=
  let url := path
  let url :=
    if netloc ≠ [] ||
       (scheme ≠ [] && usesNetloc.contains scheme && url.take 2 ≠ ['/', '/']) then
      let url := if url ≠ [] && url.take 1 ≠ ['/'] then '/' :: url else url
      '/' :: '/' :: (netloc ++ url)
    else url
  let url := if scheme ≠ [] then scheme ++ ':' :: url else url
  let url := if query ≠ [] then url ++ '?' :: query else url
  if fragment ≠ [] then url ++ '#' :: fragment else url

/-- Model of CPython `urllib.parse.urlunparse`. -/
def pyUrlunparse (scheme netloc path params query fragment : List Char) : List Char :=
  let p := if params ≠ [] then path ++ ';' :: params else path
  pyUrlunsplit scheme netloc p query fragment

/-- CPython `urllib.parse.uses_relative`. -/
def usesRelative : List (List Char) :=
  ["".data, "ftp".data, "http".data, "gopher".data, "nntp".data, "imap".data,
   "wais".data, "file".data, "https".data, "shttp".data, "mms".data,
   "prospero".data, "rtsp".data, "rtspu".data, "sftp".data, "svn".data,
   "svn+ssh".data, "ws".data, "wss".data]

/-- The segment-resolution loop of CPython `urljoin`: `.` is dropped, `..`
pops, anything else is appended. -/
def resolveSegs : List (List Char) → List (List Char) → List (List Char)
  | acc, [] => acc
  | acc, seg :: rest =>
    if seg = "..".data then resolveSegs (acc.dropLast) rest
    else if seg = ".".data then resolveSegs acc rest
    else resolveSegs (acc ++ [seg]) rest

/-- `'/'.join` on character-list segments. -/
def joinSlash : List (List Char) → List Char
  | [] => []
  | [s] => s
  | s :: rest => s ++ '/' :: joinSlash rest

/-- Python `str.split(sep)` for a one-character separator. -/
def splitOnChar (c : Char) : List Char → List (List Char)
  | [] => [[]]
  | x :: xs =>
    if x = c then [] :: splitOnChar c xs
    else
      match splitOnChar c xs with
      | [] => [[x]]
      | h :: t => (x :: h) :: t

/-- Python `str.split('/')` on a character list. -/
def splitSlash (l : List Char) : List (List Char) := splitOnChar '/' l

/-- Model of CPython `urllib.parse.urljoin(base, url)` (current CPython,
RFC-3986 resolution). -/
def pyUrljoinL (base url : List Char) : List Char :=
  if base = [] then url
  else if url = [] then base
  else
    let b := pyUrlparse [] base
    let u := pyUrlparse b.scheme url
    if u.scheme ≠ b.scheme || ¬ usesRelative.contains u.scheme then url
    else
      let netloc :=
        if usesNetloc.contains u.scheme then
          if u.netloc ≠ [] then none else some b.netloc
        else some u.netloc
      match netloc with
      | none => pyUrlunparse u.scheme u.netloc u.path u.params u.query u.fragment
      | some netloc =>
        if u.path = [] && u.params = [] then
          let query := if u.query = [] then b.query else u.query
          pyUrlunparse u.scheme netloc b.path b.params query u.fragment
        else
          let baseParts := splitSlash b.path
          let baseParts :=
            if baseParts.getLast? = some [] then baseParts else baseParts.dropLast
          let segments :=
            if u.path.take 1 = ['/'] then splitSlash u.path
            else
              let segs := baseParts ++ splitSlash u.path
              -- CPython: segments[1:-1] = filter(None, segments[1:-1])
              match segs with
              | [] => []
              | [s] => [s]
              | s :: rest =>
                s :: ((rest.dropLast).filter (· ≠ [])) ++ [(rest.getLast?).getD []]
          let resolved := resolveSegs [] segments
          let resolved :=
            if segments.getLast? = some ".".data || segments.getLast? = some "..".data
            then resolved ++ [[]] else resolved
          let path := joinSlash resolved
          let path := if path = [] then ['/'] else path
          pyUrlunparse u.scheme netloc path u.params u.query u.fragment

/-- `urljoin` on strings. -/
def pyUrljoin (base url : String) : String :=
  String.mk (pyUrljoinL base.data url.data)

/-! ### `app/core/utils.py`: `normalize_url` -/

/-- The scheme-prefixing step of `normalize_url`: after stripping, prepend
`https://` unless the string already starts with `http://` or `https://`. -/
def normPrefixed (s : List Char) : List Char :=
  let url := stripL s
  if isPrefixL "http://".data url || isPrefixL "https://".data url then url
  else "https://".data ++ url

/-- The `www.`-stripping step of `normalize_url`. -/
def wwwStrip (netloc : List Char) : List Char :=
  if isPrefixL "www.".data netloc then netloc.drop 4 else netloc

/-- The host `normalize_url` computes: the parsed netloc, lower-cased, with
one leading `www.` removed. -/
def normHost (s : List Char) : List Char :=
  wwwStrip (lowerL (pyUrlparse [] (normPrefixed s)).netloc)

/-- Core of `normalize_url` on a character list (see `normalize_url`). -/
def normCore (s : List Char) : List Char :=
  if stripL s = [] then []
  else
    let P := pyUrlparse [] (normPrefixed s)
    let path := if P.path = ['/'] then [] else P.path
    pyUrlunparse "https".data (normHost s) path P.params P.query P.fragment

/-- `app/core/utils.py::normalize_url`: trims whitespace, prepends `https://`
when no `http://`/`https://` prefix is present, parses, forces the scheme to
`https`, lower-cases the host, strips one leading `www.`, collapses a sole
`/` path to empty and reassembles.  (The `except` fallback to `""` is dead in
the model: the parse model is total, as `urlparse` is on strings.) -/
def normalize_url (s : String) : String := String.mk (normCore s.data)

/-- `normalize_url` at the Python call boundary: `None` (or a non-string,
which the code treats identically via `not isinstance(s, str)`) yields `""`. -/
def normalize_url_py (s : Option String) : String :=
  match s with
  | none => ""
  | some s => normalize_url s

/-! ### `app/features/audit/adapters/fetcher.py`: `find_pricing_link`

The link scan models `re.findall` with the pattern
`<a[^>]*href=["']([^"']+)["'][^>]*>([^<]*)</a>` under
`re.IGNORECASE | re.DOTALL`.  For this pattern the only backtracking choice
is the position of `href=` inside the greedy `[^>]*` (tried right-to-left);
the quoted capture, the `[^>]*>` skip and the `[^<]*</a>` tail are forced. -/

/-- Case-insensitive match of an ASCII pattern literal; returns the rest. -/
def matchLit : List Char → List Char → Option (List Char)
  | [], l => some l
  | _ :: _, [] => none
  | p :: ps, c :: cs => if pyToLower c = pyToLower p then matchLit ps cs else none

/-- Continue a match of the regex after an `href=` found at `l`: quote,
`([^"']+)`, quote, `[^>]*`, `>`, `([^<]*)`, `</a>`.  Returns
(href capture, text capture, rest after the whole match). -/
def matchAfterHref (l : List Char) : Option (List Char × List Char × List Char) := do
  let (qc, l) ← match l with
    | c :: cs => if c = '"' || c = '\'' then some (c, cs) else none
    | [] => none
  let _ := qc
  let href := l.takeWhile (fun c => c ≠ '"' && c ≠ '\'')
  if href = [] then none else
  let l := l.drop href.length
  let l ← match l with
    | c :: cs => if c = '"' || c = '\'' then some cs else none
    | [] => none
  let skip := l.takeWhile (· ≠ '>')
  let l := l.drop skip.length
  let l ← match l with
    | '>' :: cs => some cs
    | _ => none
  let txt := l.takeWhile (· ≠ '<')
  let l := l.drop txt.length
  let l ← matchLit "</a>".data l
  some (href, txt, l)

/-- Try the `href=` positions inside the `[^>]*` run, longest skip first
(greedy `[^>]*` with backtracking).  `i` counts down. -/
def tryHrefAt (run rest1 : List Char) : Nat → Option (List Char × List Char × List Char)
  | 0 =>
    (matchLit "href=".data rest1).bind matchAfterHref
  | i + 1 =>
    match (matchLit "href=".data (rest1.drop (i + 1))).bind matchAfterHref with
    | some r => some r
    | none => tryHrefAt run rest1 i
  -- the skipped characters `rest1.take i` lie inside `run`, hence are non-`>`

/-- Match the whole pattern at the start of `l`. -/
def matchAnchorAt (l : List Char) : Option (List Char × List Char × List Char) :=
  match matchLit "<a".data l with
  | none => none
  | some rest1 =>
    let run := rest1.takeWhile (· ≠ '>')
    tryHrefAt run rest1 run.length

/-- `re.findall` for the anchor pattern: scan left to right, resume after
each non-overlapping match.  `fuel` bounds the recursion (the scan consumes
at least one character per step). -/
def findAnchors : Nat → List Char → List (List Char × List Char)
  | 0, _ => []
  | _ + 1, [] => []
  | fuel + 1, l@(_ :: tl) =>
    match matchAnchorAt l with
    | some (href, txt, rest) => (href, txt) :: findAnchors fuel rest
    | none => findAnchors fuel tl

/-- The anchor (`href`, link text) pairs of an HTML page, in match order. -/
def linkMatches (html : String) : List (String × String) :=
  (findAnchors (html.data.length + 1) html.data).map
    (fun p => (String.mk p.1, String.mk p.2))

/-- The pricing keyword list of `find_pricing_link`. -/
def pricing_keywords : List String :=
  ["цены", "цена", "тариф", "тарифы", "стоимость", "прайс",
   "pricing", "price", "prices", "tariff", "cost", "payment", "план"]

/-- Does `href ++ " " ++ text`, lower-cased, contain a pricing keyword? -/
def hasPricingKeyword (href text : String) : Bool :=
  pricing_keywords.any
    (fun kw => containsSub (lowerL (href.data ++ ' ' :: text.data)) kw.data)

/-- The acceptance filter of `find_pricing_link`: same netloc as the base
URL, and the raw href is not an anchor, `mailto:` or `tel:` link. -/
def pricingLinkOk (href base absUrl : String) : Bool :=
  (pyUrlparse [] absUrl.data).netloc = (pyUrlparse [] base.data).netloc
    && !isPrefixL "#".data href.data && !isPrefixL "mailto:".data href.data
    && !isPrefixL "tel:".data href.data

/-- The selection loop of `find_pricing_link` over the regex matches. -/
def pickPricing (base : String) : List (String × String) → Option String
  | [] => none
  | (href, txt) :: rest =>
    if hasPricingKeyword href txt && pricingLinkOk href base (pyUrljoin base href)
    then some (pyUrljoin base href)
    else pickPricing base rest

/-- `fetcher.py::find_pricing_link(home_html, base_url)`: first anchor whose
combined href+text contains a pricing keyword (case-insensitively) and whose
resolved absolute URL shares the base host and is not `#`/`mailto:`/`tel:`. -/
def find_pricing_link (home_html base_url : String) : Option String :=
  pickPricing base_url (linkMatches home_html)

/-! ### `app/features/audit/adapters/fetcher.py`: `get_content_bundle` -/

/-- The content bundle dictionary produced by `get_content_bundle`
(`home_text`, plus the optional keys the code sets). -/
structure Bundle where
  home_text : String
  requires_js : Option Bool := none
  pricing_url : Option String := none
  pricing_text : Option String := none
deriving DecidableEq, Repr

/-- The effectful dependencies of `get_content_bundle`: `http_fetch` (an
HTTP GET that may raise after its retries) and `clean_html` (the
BeautifulSoup-based cleaner; a total text-for-markup function whose output
the cleaner always `strip()`s — it is kept abstract here because the claims
about the bundle depend only on the produced text). -/
structure FetchEnv where
  fetch : String → Except String String
  clean : String → String

/-- `fetcher.py::get_content_bundle(url)` with `USE_WEB_TOOLS = False` (the
module constant): normalize (raising `ValueError` on failure), fetch and
clean the home page, short-circuit on text stripped below 50 characters,
flag `requires_js` below 500, then best-effort fetch of a discovered pricing
page, included only when its stripped text exceeds 50 characters; a pricing
fetch failure is swallowed.  A home fetch failure propagates (re-raised by
the outer handler). -/
def get_content_bundle (env : FetchEnv) (url : String) : Except String Bundle :=
  let nurl := normalize_url url
  if nurl = "" then .error ("Не удалось нормализовать URL: " ++ url)
  else
    match env.fetch nurl with
    | .error e => .error e
    | .ok home_html =>
      let home_text := env.clean home_html
      if home_text = "" || (pyStrip home_text).length < 50 then
        .ok { home_text := "", requires_js := some true }
      else
        let result : Bundle :=
          { home_text := home_text,
            requires_js := some (decide ((pyStrip home_text).length < 500)) }
        match find_pricing_link home_html nurl with
        | none => .ok result
        | some purl =>
          match env.fetch purl with
          | .error _ => .ok result
          | .ok pricing_html =>
            let pricing_text := env.clean pricing_html
            if pricing_text ≠ "" && (pyStrip pricing_text).length > 50 then
              .ok { result with pricing_url := some purl,
                                pricing_text := some pricing_text }
            else .ok result

/-! ### `app/features/audit/schemas/models.py` and
`app/features/audit/adapters/sheets.py` -/

/-- `models.py::FullResult`: the 24 string-valued analysis fields, in
declaration order. -/
structure FullResult where
  offer_first_screen : String := ""
  cta_first_screen : String := ""
  utp_formula : String := ""
  product_services : String := ""
  education_program : String := ""
  all_cta : String := ""
  benefits : String := ""
  target_audience_pains : String := ""
  prices_tariffs : String := ""
  installment_payment : String := ""
  promotions : String := ""
  bonuses_gifts : String := ""
  guarantees : String := ""
  trust_factors : String := ""
  lead_magnets : String := ""
  contacts_social : String := ""
  online_chat : String := ""
  application_forms : String := ""
  main_structure : String := ""
  faq : String := ""
  marketing_insights : String := ""
  growth_hypotheses : String := ""
  brief_summary : String := ""
  notes : String := ""
deriving DecidableEq, Repr

/-- The `description=` strings of `FullResult`'s fields, in declaration
order (they name the spreadsheet columns the fields feed). -/
def fullResultDescriptions : List String :=
  ["Оффер (первый экран)", "CTA (первый экран)", "УТП (по формуле)",
   "Продукт / услуги (кратко)", "Программа обучения", "Все CTA (текст + контекст)",
   "Выгоды", "Боли ЦА", "Цены и тарифы (с источником)", "Рассрочка / Оплата позже",
   "Акции (условия/сроки)", "Бонусы / Подарки", "Гарантии", "Факторы доверия",
   "Лид-магниты / Квизы", "Контакты и соцсети", "Онлайн-чат (наличие/тип/расположение)",
   "Формы заявки (поля/кнопки)", "Структура главной (сверху вниз)", "FAQ (10–15 ключевых)",
   "Маркетинговые выводы", "Гипотезы роста (SMART)", "Краткая сводка (3–4 пункта)",
   "Заметки (служебно)"]

/-- `models.py::RowForSheet`: timestamp/user/URL metadata, optional pricing
URL, and the 24 analysis fields (declaration order as in the source). -/
structure RowForSheet where
  timestamp : String
  user_id : String
  analyzed_url : String
  pricing_url : Option String := none
  offer_first_screen : String := ""
  cta_first_screen : String := ""
  utp_formula : String := ""
  product_services : String := ""
  education_program : String := ""
  all_cta : String := ""
  benefits : String := ""
  target_audience_pains : String := ""
  prices_tariffs : String := ""
  installment_payment : String := ""
  promotions : String := ""
  bonuses_gifts : String := ""
  guarantees : String := ""
  trust_factors : String := ""
  lead_magnets : String := ""
  contacts_social : String := ""
  online_chat : String := ""
  application_forms : String := ""
  main_structure : String := ""
  faq : String := ""
  marketing_insights : String := ""
  growth_hypotheses : String := ""
  brief_summary : String := ""
  notes : String := ""
deriving DecidableEq, Repr

/-- `RowForSheet.to_sheet_row()`: the 28-element list, in source order.
`self.pricing_url or ""` maps both `None` and `""` to `""`. -/
def RowForSheet.to_sheet_row (r : RowForSheet) : List String :=
  [r.timestamp, r.user_id, r.analyzed_url, r.pricing_url.getD "",
   r.offer_first_screen, r.cta_first_screen, r.utp_formula, r.product_services,
   r.education_program, r.all_cta, r.benefits, r.target_audience_pains,
   r.prices_tariffs, r.installment_payment, r.promotions, r.bonuses_gifts,
   r.guarantees, r.trust_factors, r.lead_magnets, r.contacts_social,
   r.online_chat, r.application_forms, r.main_structure, r.faq,
   r.marketing_insights, r.growth_hypotheses, r.brief_summary, r.notes]

/-- The analysis-field values of a `RowForSheet`, in declaration order. -/
def RowForSheet.analysisFields (r : RowForSheet) : List String :=
  [r.offer_first_screen, r.cta_first_screen, r.utp_formula, r.product_services,
   r.education_program, r.all_cta, r.benefits, r.target_audience_pains,
   r.prices_tariffs, r.installment_payment, r.promotions, r.bonuses_gifts,
   r.guarantees, r.trust_factors, r.lead_magnets, r.contacts_social,
   r.online_chat, r.application_forms, r.main_structure, r.faq,
   r.marketing_insights, r.growth_hypotheses, r.brief_summary, r.notes]

/-- `sheets.py::SHEET_HEADERS`: the fixed 28 Russian column titles. -/
def SHEET_HEADERS : List String :=
  ["Дата и время анализа", "ID пользователя", "Ссылка", "Страница с ценами",
   "Оффер (первый экран)", "CTA (первый экран)", "УТП (по формуле)",
   "Продукт / услуги (кратко)", "Программа обучения", "Все CTA (текст + контекст)",
   "Выгоды", "Боли ЦА", "Цены и тарифы (с источником)", "Рассрочка / Оплата позже",
   "Акции (условия/сроки)", "Бонусы / Подарки", "Гарантии", "Факторы доверия",
   "Лид-магниты / Квизы", "Контакты и соцсети", "Онлайн-чат (наличие/тип/расположение)",
   "Формы заявки (поля/кнопки)", "Структура главной (сверху вниз)", "FAQ (10–15 ключевых)",
   "Маркетинговые выводы", "Гипотезы роста (SMART)", "Краткая сводка (3–4 пункта)",
   "Заметки (служебно)"]

/-! ### A model of JSON values and of `json.loads`

`json.loads` keeps the **last** of duplicate object keys; numbers are kept as
their source text (no claim depends on numeric values).  The parser accepts
the JSON grammar (with a slightly lenient number token) and rejects
everything else with an error message, as `json.loads` raises
`JSONDecodeError`. -/

inductive JValue where
  | null
  | bool (b : Bool)
  | num (raw : String)
  | str (s : String)
  | arr (xs : List JValue)
  | obj (kvs : List (String × JValue))
deriving Repr

/-- Lookup in a parsed JSON object, as a Python `dict` built by `json.loads`
behaves: the last occurrence of a duplicated key wins. -/
def objGet (kvs : List (String × JValue)) (k : String) : Option JValue :=
  ((kvs.filter (fun kv => kv.1 = k)).getLast?).map (·.2)

/-- JSON whitespace. -/
def jsonWs (c : Char) : Bool := c = ' ' || c = '\t' || c = '\n' || c = '\r'

/-- Characters a (lenient) JSON number token may contain. -/
def jNumChar (c : Char) : Bool :=
  ('0' ≤ c && c ≤ '9') || c = '-' || c = '+' || c = '.' || c = 'e' || c = 'E'

def hexVal (c : Char) : Option Nat :=
  if 48 ≤ c.toNat && c.toNat ≤ 57 then some (c.toNat - 48)
  else if 97 ≤ c.toNat && c.toNat ≤ 102 then some (c.toNat - 87)
  else if 65 ≤ c.toNat && c.toNat ≤ 70 then some (c.toNat - 55)
  else none

/-- Decode one string-literal escape (after the backslash). -/
def jEscape : List Char → Option (Char × List Char)
  | '"' :: r => some ('"', r)
  | '\\' :: r => some ('\\', r)
  | '/' :: r => some ('/', r)
  | 'b' :: r => some ('\x08', r)
  | 'f' :: r => some ('\x0c', r)
  | 'n' :: r => some ('\n', r)
  | 'r' :: r => some ('\r', r)
  | 't' :: r => some ('\t', r)
  | 'u' :: a :: b :: c :: d :: r => do
    let a ← hexVal a; let b ← hexVal b; let c ← hexVal c; let d ← hexVal d
    some (Char.ofNat (((a * 16 + b) * 16 + c) * 16 + d), r)
  | _ => none

mutual

/-- Parse one JSON value (leading whitespace skipped); returns the rest. -/
def jParseVal : Nat → List Char → Except String (JValue × List Char)
  | 0, _ => .error "Expecting value: depth limit"
  | fuel + 1, l =>
    match l.dropWhile jsonWs with
    | [] => .error "Expecting value"
    | '{' :: rest => jParseObj fuel (rest.dropWhile jsonWs) []
    | '[' :: rest => jParseArr fuel (rest.dropWhile jsonWs) []
    | '"' :: rest =>
      match jParseStr fuel [] rest with
      | .ok (s, r) => .ok (.str s, r)
      | .error e => .error e
    | 't' :: 'r' :: 'u' :: 'e' :: rest => .ok (.bool true, rest)
    | 'f' :: 'a' :: 'l' :: 's' :: 'e' :: rest => .ok (.bool false, rest)
    | 'n' :: 'u' :: 'l' :: 'l' :: rest => .ok (.null, rest)
    | c :: rest =>
      if ('0' ≤ c && c ≤ '9') || c = '-' then
        let tok := c :: rest.takeWhile jNumChar
        .ok (.num (String.mk tok), rest.drop (rest.takeWhile jNumChar).length)
      else .error "Expecting value"

/-- Parse the body of a string literal. -/
def jParseStr : Nat → List Char → List Char → Except String (String × List Char)
  | 0, _, _ => .error "Unterminated string: depth limit"
  | _ + 1, acc, [] =>
    let _ := acc
    .error "Unterminated string starting at"
  | fuel + 1, acc, c :: rest =>
    if c = '"' then .ok (String.mk acc.reverse, rest)
    else if c = '\\' then
      match jEscape rest with
      | some (d, r) => jParseStr fuel (d :: acc) r
      | none => .error "Invalid escape"
    else jParseStr fuel (c :: acc) rest

/-- Parse object members; `l` is positioned at `}` or at the first key. -/
def jParseObj : Nat → List Char → List (String × JValue) →
    Except String (JValue × List Char)
  | 0, _, _ => .error "Expecting property name: depth limit"
  | _ + 1, '}' :: rest, acc => .ok (.obj acc.reverse, rest)
  | fuel + 1, '"' :: rest, acc =>
    match jParseStr fuel [] rest with
    | .error e => .error e
    | .ok (k, r) =>
      match r.dropWhile jsonWs with
      | ':' :: r2 =>
        match jParseVal fuel r2 with
        | .error e => .error e
        | .ok (v, r3) =>
          match r3.dropWhile jsonWs with
          | ',' :: r4 =>
            match (r4.dropWhile jsonWs) with
            | '"' :: r5 => jParseObj fuel ('"' :: r5) ((k, v) :: acc)
            | _ => .error "Expecting property name enclosed in double quotes"
          | '}' :: r4 => .ok (.obj ((k, v) :: acc).reverse, r4)
          | _ => .error "Expecting comma delimiter"
      | _ => .error "Expecting colon delimiter"
  | _ + 1, _, _ => .error "Expecting property name enclosed in double quotes"

/-- Parse array items; `l` is positioned at `]` or at the first item. -/
def jParseArr : Nat → List Char → List JValue → Except String (JValue × List Char)
  | 0, _, _ => .error "Expecting value: depth limit"
  | _ + 1, ']' :: rest, acc => .ok (.arr acc.reverse, rest)
  | fuel + 1, l, acc =>
    match jParseVal fuel l with
    | .error e => .error e
    | .ok (v, r) =>
      match r.dropWhile jsonWs with
      | ',' :: r2 => jParseArr fuel (r2.dropWhile jsonWs) (v :: acc)
      | ']' :: r2 => .ok (.arr (v :: acc).reverse, r2)
      | _ => .error "Expecting comma delimiter"

end

/-- Model of `json.loads`: parse one value and require only whitespace to
follow, as CPython does (`Extra data` otherwise). -/
def jsonLoads (s : String) : Except String JValue :=
  match jParseVal (s.length + 1) s.data with
  | .error e => .error e
  | .ok (v, rest) =>
    if rest.dropWhile jsonWs = [] then .ok v else .error "Extra data"

/-! ### `app/features/audit/adapters/llm.py`: the reply mapping of
`analyze_content`

Pydantic v2 (the repository pins `pydantic_settings`, i.e. pydantic ≥ 2)
validates a `str` field by accepting exactly JSON strings — lists, numbers,
objects, booleans and `None` are rejected with a `ValidationError` — and an
`Optional[str]` field by additionally accepting `None`. -/

/-- Pydantic v2 validation of a `str` field. -/
def validateStr : JValue → Except String String
  | .str s => .ok s
  | _ => .error "Input should be a valid string"

/-- Pydantic v2 validation of an `Optional[str]` field. -/
def validateOptStr : JValue → Except String (Option String)
  | .null => .ok none
  | .str s => .ok (some s)
  | _ => .error "Input should be a valid string"

/-- The keys of `llm.py::analyze_content`'s `field_mapping`, in source
order (which coincides with `FullResult`'s field order). -/
def russianKeys : List String :=
  ["Оффер (первый экран)", "CTA (первый экран)", "УТП (по формуле)",
   "Продукт / услуги (кратко)", "Программа обучения", "Все CTA (текст + контекст)",
   "Выгоды", "Боли ЦА", "Цены и тарифы (с источником)", "Рассрочка / Оплата позже",
   "Акции (условия/сроки)", "Бонусы / Подарки", "Гарантии", "Факторы доверия",
   "Лид-магниты / Квизы", "Контакты и соцсети", "Онлайн-чат (наличие/тип/расположение)",
   "Формы заявки (поля/кнопки)", "Структура главной (сверху вниз)", "FAQ (10–15 ключевых)",
   "Маркетинговые выводы", "Гипотезы роста (SMART)", "Краткая сводка (3–4 пункта)",
   "Заметки (служебно)"]

/-- Build a `FullResult` from 24 field values in declaration order. -/
def fullResultOfList (vs : List String) : FullResult :=
  { offer_first_screen := vs.getD 0 "", cta_first_screen := vs.getD 1 "",
    utp_formula := vs.getD 2 "", product_services := vs.getD 3 "",
    education_program := vs.getD 4 "", all_cta := vs.getD 5 "",
    benefits := vs.getD 6 "", target_audience_pains := vs.getD 7 "",
    prices_tariffs := vs.getD 8 "", installment_payment := vs.getD 9 "",
    promotions := vs.getD 10 "", bonuses_gifts := vs.getD 11 "",
    guarantees := vs.getD 12 "", trust_factors := vs.getD 13 "",
    lead_magnets := vs.getD 14 "", contacts_social := vs.getD 15 "",
    online_chat := vs.getD 16 "", application_forms := vs.getD 17 "",
    main_structure := vs.getD 18 "", faq := vs.getD 19 "",
    marketing_insights := vs.getD 20 "", growth_hypotheses := vs.getD 21 "",
    brief_summary := vs.getD 22 "", notes := vs.getD 23 "" }

/-- The analysis-field values of a `FullResult`, in declaration order. -/
def FullResult.fields (fr : FullResult) : List String :=
  [fr.offer_first_screen, fr.cta_first_screen, fr.utp_formula,
   fr.product_services, fr.education_program, fr.all_cta, fr.benefits,
   fr.target_audience_pains, fr.prices_tariffs, fr.installment_payment,
   fr.promotions, fr.bonuses_gifts, fr.guarantees, fr.trust_factors,
   fr.lead_magnets, fr.contacts_social, fr.online_chat, fr.application_forms,
   fr.main_structure, fr.faq, fr.marketing_insights, fr.growth_hypotheses,
   fr.brief_summary, fr.notes]

/-- `result_data[model_field] = data.get(json_field, "")`: the raw value for
one mapping key (the missing-key default is the empty string). -/
def jGetD (kvs : List (String × JValue)) (k : String) : JValue :=
  (objGet kvs k).getD (.str "")

/-- Sequential validation of a list of values, stopping at the first
failure (how pydantic reports on construction). -/
def exceptMapM (f : α → Except String β) : List α → Except String (List β)
  | [] => .ok []
  | x :: xs =>
    match f x with
    | .error e => .error e
    | .ok y =>
      match exceptMapM f xs with
      | .error e => .error e
      | .ok ys => .ok (y :: ys)

/-- `FullResult(**result_data)`: pydantic validates every field (in field
order) and constructs the model, raising on the first non-string value. -/
def mkFullResultJ (kvs : List (String × JValue)) : Except String FullResult :=
  match exceptMapM (fun k => validateStr (jGetD kvs k)) russianKeys with
  | .error e => .error e
  | .ok vs => .ok (fullResultOfList vs)

/-- `llm.py::parse_short_summary`: collect `-`/`•`/`*` bulleted lines
(marker and following whitespace stripped); fall back to sentence-splitting
on `.`; truncate to 4 items. -/
def parse_short_summary (summary_text : String) : List String :=
  if summary_text = "" then []
  else
    let points := (splitOnChar '\n' summary_text.data).filterMap (fun line =>
      let line := stripL line
      if line ≠ [] &&
         (isPrefixL "-".data line || isPrefixL "•".data line ||
          isPrefixL "*".data line) then
        let point := stripL ((line.drop 1).dropWhile pyWs)
        if point ≠ [] then some (String.mk point) else none
      else none)
    let points :=
      if points = [] then
        (((splitOnChar '.' summary_text.data).map stripL).filter (· ≠ [])).map
          String.mk
      else points
    points.take 4

/-- The post-parse portion of `llm.py::analyze_content`: map the 24 Russian
keys through `field_mapping` with `""` defaults, validate and construct the
`FullResult`, then derive the short summary (with the three-field fallback).
A non-object reply makes `data.get` raise (`AttributeError`), re-raised by
the function's handler. -/
def analyzeFromData (data : JValue) : Except String (FullResult × List String) :=
  match data with
  | .obj kvs => do
    let fr ← mkFullResultJ kvs
    let brief :=
      match objGet kvs "Краткая сводка (3–4 пункта)" with
      | some (.str s) => s
      | some _ => ""  -- unreachable: `mkFullResultJ` validated this key
      | none => ""
    let ss := parse_short_summary brief
    let ss :=
      if ss.isEmpty then
        ([String.mk (fr.offer_first_screen.data.take 100),
          String.mk (fr.product_services.data.take 100),
          String.mk (fr.marketing_insights.data.take 100)].filter (· ≠ "")).take 4
      else ss
    pure (fr, ss)
  | _ => .error "AttributeError: reply has no attribute get"

/-! ### `app/features/audit/services/persist.py`: `convert_json_to_row` -/

/-- The keys of `persist.py::convert_json_to_row`'s field list, in source
order. -/
def englishFields : List String :=
  ["offer_first_screen", "cta_first_screen", "utp_formula",
   "product_services", "education_program", "all_cta",
   "benefits", "target_audience_pains", "prices_tariffs",
   "installment_payment", "promotions", "bonuses_gifts",
   "guarantees", "trust_factors", "lead_magnets",
   "contacts_social", "online_chat", "application_forms",
   "main_structure", "faq", "marketing_insights",
   "growth_hypotheses", "brief_summary", "notes"]

/-- The degraded placeholder row of `convert_json_to_row`'s error path:
formatted current time, user id, url, empty pricing URL, an
`Ошибка обработки: <message>` first analysis column and 23 empty columns. -/
def degradedRow (now user_id url msg : String) : List String :=
  [now, user_id, url, "", "Ошибка обработки: " ++ msg] ++ List.replicate 23 ""

/-- Build the `RowForSheet` of `convert_json_to_row`'s happy path
(`timestamp=""` as in the source). -/
def rowOfFields (user_id url : String) (pricing : Option String)
    (vs : List String) : RowForSheet :=
  { timestamp := "", user_id := user_id, analyzed_url := url,
    pricing_url := pricing,
    offer_first_screen := vs.getD 0 "", cta_first_screen := vs.getD 1 "",
    utp_formula := vs.getD 2 "", product_services := vs.getD 3 "",
    education_program := vs.getD 4 "", all_cta := vs.getD 5 "",
    benefits := vs.getD 6 "", target_audience_pains := vs.getD 7 "",
    prices_tariffs := vs.getD 8 "", installment_payment := vs.getD 9 "",
    promotions := vs.getD 10 "", bonuses_gifts := vs.getD 11 "",
    guarantees := vs.getD 12 "", trust_factors := vs.getD 13 "",
    lead_magnets := vs.getD 14 "", contacts_social := vs.getD 15 "",
    online_chat := vs.getD 16 "", application_forms := vs.getD 17 "",
    main_structure := vs.getD 18 "", faq := vs.getD 19 "",
    marketing_insights := vs.getD 20 "", growth_hypotheses := vs.getD 21 "",
    brief_summary := vs.getD 22 "", notes := vs.getD 23 "" }

/-- `persist.py::convert_json_to_row(result_json, user_id, url)`: parse the
stored JSON, pull `full_result`/`pricing_url`, build the `RowForSheet` with
`""` defaults and serialize it; **any** failure (parse error, non-object
payloads, pydantic validation) is caught inside the function, which then
returns the degraded placeholder row stamped with the current time `now` —
the function never raises. -/
def convert_json_to_row (now : String) (result_json user_id url : String) :
    List String :=
  match jsonLoads result_json with
  | .error e => degradedRow now user_id url e
  | .ok data =>
    match data with
    | .obj kvs =>
      let frd := (objGet kvs "full_result").getD (.obj [])
      let pu := (objGet kvs "pricing_url").getD (.str "")
      match frd with
      | .obj fr =>
        let built : Except String RowForSheet := do
          let pricing ← validateOptStr pu
          let vs ← exceptMapM (fun f => validateStr (jGetD fr f)) englishFields
          pure (rowOfFields user_id url pricing vs)
        match built with
        | .ok row => row.to_sheet_row
        | .error e => degradedRow now user_id url e
      | _ => degradedRow now user_id url "AttributeError: object has no attribute get"
    | _ => degradedRow now user_id url "AttributeError: object has no attribute get"

/-! ### `app/storage/sqlite.py`

The three tables are modelled as explicit state: `users_limits` as a map
from user id to its row, `pending_results` as the list of inserted rows
(ids are the autoincrement surrogate keys).  `ensure_user_limit` is
`INSERT OR IGNORE (user_id, 0, default)`; `set_limit` ensures then
`UPDATE ... SET max_limit = ?`; `increment_counter` is
`UPDATE ... SET current = current + 1`; `fetch_unwritten_results` selects
`written = 0` rows of the user `ORDER BY created_at` (SQLite compares the
ISO-8601 `TEXT` timestamps lexicographically; ties keep table order, as the
stable `mergeSort` does); `mark_written` sets the flag by id. -/

/-- One `users_limits` row. -/
structure LimitRow where
  current : Int
  max_limit : Int
deriving DecidableEq, Repr

/-- `sqlite.py::ensure_user_limit(user_id, default_limit)`:
`INSERT OR IGNORE INTO users_limits (user_id, current, max_limit)
VALUES (?, 0, ?)`. -/
def ensure_user_limit (limits : String → Option LimitRow)
    (user_id : String) (default_limit : Int) : String → Option LimitRow :=
  fun v => if v = user_id then some ((limits user_id).getD ⟨0, default_limit⟩)
           else limits v

/-- `sqlite.py::set_limit(user_id, n)`: ensure the row exists (with `n` as
the provisional default), then `UPDATE users_limits SET max_limit = ?`. -/
def set_limit (limits : String → Option LimitRow) (user_id : String)
    (n : Int) : String → Option LimitRow :=
  let ensured := ensure_user_limit limits user_id n
  fun v => if v = user_id then (ensured user_id).map (fun r => { r with max_limit := n })
           else ensured v

/-- `sqlite.py::can_run(user_id, default_limit)`'s decision on the ensured
row: `current < max_limit` (`False` when the row is absent). -/
def can_run_check (limits : String → Option LimitRow) (user_id : String) : Bool :=
  match limits user_id with
  | some r => r.current < r.max_limit
  | none => false

/-- One `pending_results` row. -/
structure PendingRow where
  id : Nat
  user_id : String
  url : String
  result_json : String
  created_at : String
  written : Bool
deriving DecidableEq, Repr

/-- The persistent state touched by the persistence service. -/
structure StorageState where
  /-- `users_settings`: user id → bound sheet id. -/
  sheets : String → Option String
  /-- `pending_results`, in insertion (rowid) order. -/
  pending : List PendingRow

/-- Python truthiness of the `Optional[str]` returned by
`get_user_sheet_id` (`None` and `""` are falsy). -/
def pyTruthyOptStr (o : Option String) : Bool :=
  match o with
  | none => false
  | some s => !s.isEmpty

/-- Lexicographic character-list comparison (SQLite's `memcmp` `TEXT`
order, which coincides with code-point order on the ASCII ISO-8601
timestamps the program stores). -/
def leChars : List Char → List Char → Bool
  | [], _ => true
  | _ :: _, [] => false
  | a :: as, b :: bs => if a = b then leChars as bs else decide (a < b)

theorem leChars_total : ∀ (x y : List Char), leChars x y = true ∨ leChars y x = true := by
  intro x
  induction x with
  | nil => intro y; left; cases y <;> rfl
  | cons a as ih =>
    intro y
    cases y with
    | nil => right; rfl
    | cons b bs =>
      by_cases hab : a = b
      · subst hab
        rcases ih bs with h | h
        · left; simpa [leChars] using h
        · right; simpa [leChars] using h
      · rcases lt_or_gt_of_ne hab with h | h
        · left; simp [leChars, hab, h]
        · right
          have hba : ¬ b = a := fun hh => hab hh.symm
          simp [leChars, hba, h]

theorem leChars_trans : ∀ (x y z : List Char),
    leChars x y = true → leChars y z = true → leChars x z = true := by
  intro x
  induction x with
  | nil => intro y z _ _; cases z <;> rfl
  | cons a as ih =>
    intro y z hxy hyz
    cases y with
    | nil => simp [leChars] at hxy
    | cons b bs =>
      cases z with
      | nil => simp [leChars] at hyz
      | cons c cs =>
        by_cases hab : a = b <;> by_cases hbc : b = c
        · subst hab; subst hbc
          simp only [leChars, if_pos rfl] at *
          exact ih bs cs hxy hyz
        · subst hab
          simp only [leChars, if_pos rfl, if_neg hbc] at *
          exact hyz
        · subst hbc
          simp only [leChars, if_neg hab] at *
          exact hxy
        · simp only [leChars, if_neg hab, if_neg hbc, decide_eq_true_eq] at hxy hyz
          have hac : a < c := lt_trans hxy hyz
          simp [leChars, ne_of_lt hac, hac]

/-- The `ORDER BY created_at` comparison. -/
def byCreated (a b : PendingRow) : Prop :=
  leChars a.created_at.data b.created_at.data = true

instance : DecidableRel byCreated := fun _ _ => instDecidableEqBool _ _

instance : IsTotal PendingRow byCreated :=
  ⟨fun a b => leChars_total a.created_at.data b.created_at.data⟩

instance : IsTrans PendingRow byCreated :=
  ⟨fun a b c => leChars_trans a.created_at.data b.created_at.data c.created_at.data⟩

/-- `sqlite.py::fetch_unwritten_results(user_id)`: `SELECT * FROM
pending_results WHERE user_id = ? AND written = 0 ORDER BY created_at`
(a stable ascending sort of the matching rows). -/
def fetch_unwritten_results (st : StorageState) (user_id : String) :
    List PendingRow :=
  List.insertionSort byCreated
    (st.pending.filter (fun r => r.user_id = user_id && r.written = false))

/-- `sqlite.py::mark_written(result_id)`: `UPDATE pending_results SET
written = 1 WHERE id = ?`. -/
def mark_written (st : StorageState) (result_id : Nat) : StorageState :=
  { st with pending :=
      (st.pending.map fun r =>
        if r.id = result_id then { r with written := true } else r) }

/-! ### `app/features/audit/services/persist.py`:
`flush_pending_to_user_sheet` -/

/-- The spreadsheet-adapter effects used by the flush: `ensure_headers` and
`write_row` may raise (after their retries), as may `mark_written`'s
database write; each call is keyed by the record id it serves so that
per-record outcomes can be expressed. -/
structure SheetEnv where
  ensureHeaders : Except String Unit
  writeRow : Nat → List String → Except String Unit
  markWritten : Nat → Except String Unit

/-- The `for result in results` loop of `flush_pending_to_user_sheet`:
convert (never raises), write, mark; an exception from the write or the mark
skips the record (`continue`) without touching the counter. -/
def flushLoop (env : SheetEnv) (now user_id : String) :
    List PendingRow → Nat × StorageState → Nat × StorageState
  | [], acc => acc
  | r :: rest, (counter, st) =>
    let row := convert_json_to_row now r.result_json user_id r.url
    match env.writeRow r.id row with
    | .error _ => flushLoop env now user_id rest (counter, st)
    | .ok () =>
      match env.markWritten r.id with
      | .error _ => flushLoop env now user_id rest (counter, st)
      | .ok () => flushLoop env now user_id rest (counter + 1, mark_written st r.id)

/-- `persist.py::flush_pending_to_user_sheet(user_id)`: returns 0 with no
effect when the user has no (truthy) binding or no unwritten results;
otherwise ensures headers once (an exception there is caught by the
function's outer handler, returning 0), then writes and marks each fetched
record, skipping individually failing ones, and returns the count
transferred.  `now` stands for the wall clock read by the degraded-row
conversion path. -/
def flush_pending_to_user_sheet (env : SheetEnv) (st : StorageState)
    (now user_id : String) : Nat × StorageState :=
  if !pyTruthyOptStr (st.sheets user_id) then (0, st)
  else
    let results := fetch_unwritten_results st user_id
    if results.isEmpty then (0, st)
    else
      match env.ensureHeaders with
      | .error _ => (0, st)
      | .ok () => flushLoop env now user_id results (0, st)

/-! ### `app/features/audit/services/run_audit.py`: `run_audit` -/

/-- The awaited dependencies of `run_audit`, each able to raise:
`ensure_user_limit`, `can_run`, `get_content_bundle`, `analyze_content`
(home text, pricing text, pricing URL), `get_user_sheet_id`,
`write_or_defer` and `increment_counter`. -/
structure AuditEnv where
  ensureUserLimit : Except String Unit
  canRun : Except String Bool
  getBundle : String → Except String Bundle
  analyze : String → Option String → Option String →
    Except String (FullResult × List String)
  getUserSheetId : Except String (Option String)
  writeOrDefer : Except String Unit
  incrementCounter : Except String Unit

/-- The dictionary `run_audit` returns. -/
inductive AuditOutcome where
  | success (short_summary : List String) (written_now : Bool)
  | failure (reason : String) (error : Option String)
deriving DecidableEq, Repr

/-- The `try` body of `run_audit(user_id, url)`: quota check (`"limit"`),
normalization (`"invalid_url"`), fetch (`"fetch_failed"` on empty/missing
home text), analysis, sheet lookup (before the write, for `written_now`),
persistence, counter increment, success with the first 4 summary items.
An `Except.error` is an uncaught exception reaching the handler. -/
def runAuditCore (env : AuditEnv) (url : String) : Except String AuditOutcome := do
  let _ ← env.ensureUserLimit
  let ok ← env.canRun
  if !ok then return .failure "limit" none
  let nurl := normalize_url url
  if nurl = "" then return .failure "invalid_url" none
  let bundle ← env.getBundle nurl
  if bundle.home_text = "" then return .failure "fetch_failed" none
  let fs ← env.analyze bundle.home_text bundle.pricing_text bundle.pricing_url
  let sheetId ← env.getUserSheetId
  let _ ← env.writeOrDefer
  let _ ← env.incrementCounter
  return .success (fs.2.take 4) (pyTruthyOptStr sheetId)

/-- `run_audit.py::run_audit(user_id, url)`: the `try` body with the
top-level `except Exception` handler that converts any raised exception into
`{ok: False, reason: "internal_error", error: str(e)}`. -/
def run_audit (env : AuditEnv) (url : String) : AuditOutcome :=
  match runAuditCore env url with
  | .ok r => r
  | .error e => .failure "internal_error" (some e)

/-! ## Theorems -/

/-- **C4**: every `RowForSheet` serializes to exactly 28 values: the
timestamp, user id, analyzed URL and pricing URL (the empty string when the
pricing URL is absent), followed by the 24 analysis fields in declaration
order; and the Sheet Headers' last 24 entries name exactly those fields (the
`FullResult` column descriptions) in the same order. -/
theorem C4_to_sheet_row_shape (r : RowForSheet) :
    r.to_sheet_row.length = 28 ∧
    r.to_sheet_row =
      [r.timestamp, r.user_id, r.analyzed_url, r.pricing_url.getD ""]
        ++ r.analysisFields ∧
    SHEET_HEADERS.length = 28 ∧
    SHEET_HEADERS.drop 4 = fullResultDescriptions :=
  ⟨rfl, rfl, rfl, by decide⟩

/-- **C9**: `set_limit(user_id, n)` leaves the user's `current` counter
unchanged and sets `max_limit` to `n` (creating the row as `(0, n)` when
absent), leaves every other user's row untouched, and `ensure_user_limit`
never modifies an existing row, whatever default is passed. -/
theorem C9_set_limit_preserves_current (limits : String → Option LimitRow)
    (u : String) (n : Int) :
    (set_limit limits u n) u =
      some ⟨(match limits u with | some r => r.current | none => 0), n⟩ ∧
    (∀ v, v ≠ u → set_limit limits u n v = limits v) ∧
    (∀ (limits' : String → Option LimitRow) (u' : String) (d : Int)
        (r : LimitRow), limits' u' = some r →
      ensure_user_limit limits' u' d = limits') := by
  refine ⟨?_, ?_, ?_⟩
  · simp only [set_limit, ensure_user_limit, if_pos rfl]
    cases h : limits u <;> simp [Option.getD]
  · intro v hv
    simp only [set_limit, ensure_user_limit, if_neg hv]
  · intro limits' u' d r hr
    funext v
    by_cases hv : v = u'
    · subst hv; simp [ensure_user_limit, hr]
    · simp [ensure_user_limit, hv]

/-- **C9 witness**: concrete instantiation — for a user at `3/5`,
`set_limit 9` yields `3/9` and leaves another user's row alone, and
`ensure_user_limit` with default `42` keeps an existing row. -/
theorem C9_set_limit_preserves_current_witness :
    (set_limit (fun v => if v = "u1" then some ⟨3, 5⟩ else none) "u1" 9) "u1" =
      some ⟨3, 9⟩ ∧
    (set_limit (fun v => if v = "u1" then some ⟨3, 5⟩ else none) "u1" 9) "u2" =
      none ∧
    ensure_user_limit (fun v => if v = "u1" then some ⟨3, 5⟩ else none) "u1" 42 =
      (fun v => if v = "u1" then some ⟨3, 5⟩ else none) := by
  obtain ⟨h1, h2, h3⟩ :=
    C9_set_limit_preserves_current
      (fun v => if v = "u1" then some ⟨3, 5⟩ else none) "u1" 9
  refine ⟨h1, ?_, ?_⟩
  · rw [h2 "u2" (by decide)]; decide
  · exact h3 _ "u1" 42 ⟨3, 5⟩ (by decide)

/-- **C1**: `run_audit` returns `{ok: false, reason: "limit"}` when the
quota check fails and `{ok: false, reason: "fetch_failed"}` when the fetched
bundle's home text is empty — in both cases with a result independent of the
LLM analysis adapter (it is not invoked) — and converts any exception raised
inside the pipeline into `{ok: false, reason: "internal_error", error: e}`
instead of propagating it. -/
theorem C1_run_audit_failure_paths :
    (∀ (env : AuditEnv) (url : String),
      env.ensureUserLimit = .ok () → env.canRun = .ok false →
      run_audit env url = .failure "limit" none ∧
      ∀ f g, run_audit { env with analyze := f } url =
             run_audit { env with analyze := g } url) ∧
    (∀ (env : AuditEnv) (url : String) (b : Bundle),
      env.ensureUserLimit = .ok () → env.canRun = .ok true →
      normalize_url url ≠ "" → env.getBundle (normalize_url url) = .ok b →
      b.home_text = "" →
      run_audit env url = .failure "fetch_failed" none ∧
      ∀ f g, run_audit { env with analyze := f } url =
             run_audit { env with analyze := g } url) ∧
    (∀ (env : AuditEnv) (url : String) (e : String),
      runAuditCore env url = .error e →
      run_audit env url = .failure "internal_error" (some e)) := by
  have hlimit : ∀ (env : AuditEnv) (url : String),
      env.ensureUserLimit = .ok () → env.canRun = .ok false →
      run_audit env url = .failure "limit" none := by
    intro env url h1 h2
    simp [run_audit, runAuditCore, h1, h2, bind, Except.bind, pure, Except.pure]
  have hfetch : ∀ (env : AuditEnv) (url : String) (b : Bundle),
      env.ensureUserLimit = .ok () → env.canRun = .ok true →
      normalize_url url ≠ "" → env.getBundle (normalize_url url) = .ok b →
      b.home_text = "" →
      run_audit env url = .failure "fetch_failed" none := by
    intro env url b h1 h2 h3 h4 h5
    simp [run_audit, runAuditCore, h1, h2, h3, h4, h5, bind, Except.bind, pure,
          Except.pure]
  refine ⟨?_, ?_, ?_⟩
  · intro env url h1 h2
    refine ⟨hlimit env url h1 h2, fun f g => ?_⟩
    rw [hlimit { env with analyze := f } url h1 h2,
        hlimit { env with analyze := g } url h1 h2]
  · intro env url b h1 h2 h3 h4 h5
    refine ⟨hfetch env url b h1 h2 h3 h4 h5, fun f g => ?_⟩
    rw [hfetch { env with analyze := f } url b h1 h2 h3 h4 h5,
        hfetch { env with analyze := g } url b h1 h2 h3 h4 h5]
  · intro env url e h
    simp [run_audit, h]

/-- A no-op analysis stub used by witnesses. -/
def analyzeStub : String → Option String → Option String →
    Except String (FullResult × List String) :=
  fun _ _ _ => .ok ({}, ["s"])

/-- An `AuditEnv` whose quota check refuses. -/
def envAtLimit : AuditEnv :=
  { ensureUserLimit := .ok (), canRun := .ok false,
    getBundle := fun _ => .ok { home_text := "text" },
    analyze := analyzeStub, getUserSheetId := .ok none,
    writeOrDefer := .ok (), incrementCounter := .ok () }

/-- An `AuditEnv` whose fetch yields an empty home text. -/
def envEmptyFetch : AuditEnv :=
  { envAtLimit with canRun := .ok true,
                    getBundle := fun _ => .ok { home_text := "" } }

/-- An `AuditEnv` whose fetch raises. -/
def envFetchRaises : AuditEnv :=
  { envAtLimit with canRun := .ok true,
                    getBundle := fun _ => .error "boom" }

/-- **C1 witness**: the three branches at concrete environments — a refused
quota yields `limit`, an empty-home-text bundle yields `fetch_failed`, and a
raising fetch yields `internal_error` with the exception's message. -/
theorem C1_run_audit_failure_paths_witness :
    run_audit envAtLimit "site.com" = .failure "limit" none ∧
    run_audit envEmptyFetch "site.com" = .failure "fetch_failed" none ∧
    run_audit envFetchRaises "site.com" = .failure "internal_error" (some "boom") := by
  obtain ⟨h1, h2, h3⟩ := C1_run_audit_failure_paths
  refine ⟨(h1 envAtLimit "site.com" rfl rfl).1,
          (h2 envEmptyFetch "site.com" { home_text := "" } rfl rfl ?_ rfl rfl).1,
          h3 envFetchRaises "site.com" "boom" ?_⟩
  · decide
  · rfl

/-! ### The flush loop (claims C2 and C3) -/

/-- One record is fully transferred by the flush loop exactly when both its
`write_row` call and its `mark_written` call succeed. -/
def procOk (env : SheetEnv) (now user_id : String) (r : PendingRow) : Bool :=
  match env.writeRow r.id (convert_json_to_row now r.result_json user_id r.url),
        env.markWritten r.id with
  | .ok _, .ok _ => true
  | _, _ => false

theorem flushLoop_count (env : SheetEnv) (now u : String) :
    ∀ (L : List PendingRow) (counter : Nat) (st : StorageState),
      (flushLoop env now u L (counter, st)).1 =
        counter + (L.filter (procOk env now u)).length := by
  intro L
  induction L with
  | nil => intro counter st; simp [flushLoop]
  | cons r rest ih =>
    intro counter st
    simp only [flushLoop]
    cases hw : env.writeRow r.id (convert_json_to_row now r.result_json u r.url) with
    | error e => simp [List.filter_cons, procOk, hw, ih]
    | ok uu =>
      cases hm : env.markWritten r.id with
      | error e => simp [List.filter_cons, procOk, hw, hm, ih]
      | ok uu2 =>
        simp only [List.filter_cons, procOk, hw, hm, ih]
        simp [List.length_cons]
        omega

theorem flushLoop_sheets (env : SheetEnv) (now u : String) :
    ∀ (L : List PendingRow) (counter : Nat) (st : StorageState),
      (flushLoop env now u L (counter, st)).2.sheets = st.sheets := by
  intro L
  induction L with
  | nil => intro counter st; simp [flushLoop]
  | cons r rest ih =>
    intro counter st
    simp only [flushLoop]
    cases hw : env.writeRow r.id (convert_json_to_row now r.result_json u r.url) with
    | error e => exact ih counter st
    | ok uu =>
      cases hm : env.markWritten r.id with
      | error e => exact ih counter st
      | ok uu2 => simpa [mark_written] using ih (counter + 1) (mark_written st r.id)

theorem flushLoop_pending (env : SheetEnv) (now u : String) :
    ∀ (L : List PendingRow) (counter : Nat) (st : StorageState),
      (flushLoop env now u L (counter, st)).2.pending =
        st.pending.map (fun p =>
          if (L.filter (procOk env now u)).any (fun r => r.id = p.id)
          then { p with written := true } else p) := by
  intro L
  induction L with
  | nil =>
    intro counter st
    simp [flushLoop]
  | cons r rest ih =>
    intro counter st
    simp only [flushLoop]
    cases hw : env.writeRow r.id (convert_json_to_row now r.result_json u r.url) with
    | error e =>
      rw [ih counter st]
      simp [List.filter_cons, procOk, hw]
    | ok uu =>
      cases hm : env.markWritten r.id with
      | error e =>
        rw [ih counter st]
        simp [List.filter_cons, procOk, hw, hm]
      | ok uu2 =>
        rw [ih (counter + 1) (mark_written st r.id)]
        simp only [List.filter_cons, procOk, hw, hm]
        simp only [mark_written, List.map_map]
        refine List.map_congr_left (fun p _ => ?_)
        simp only [Function.comp]
        by_cases hid : r.id = p.id
        · have hif : (if p.id = r.id then ({ p with written := true } : PendingRow)
              else p) = { p with written := true } := if_pos hid.symm
          simp only [hif]
          have hR : (decide (r.id = p.id) : Bool) = true := by simp [hid]
          simp only [List.any_cons, hR, Bool.true_or, if_true]
          by_cases hA : ((rest.filter (procOk env now u)).any
              (fun r1 => r1.id = ({ p with written := true } : PendingRow).id)) = true
          · rw [if_pos hA]
          · rw [if_neg hA]
        · have hif : (if p.id = r.id then ({ p with written := true } : PendingRow)
              else p) = p := if_neg (fun h => hid h.symm)
          simp only [hif]
          have hR : (decide (r.id = p.id) : Bool) = false := by simpa using hid
          simp [List.any_cons, hR]

/-- **C2**: `flush_pending_to_user_sheet(user_id)` returns 0 (leaving the
state untouched) when the user has no truthy binding or no unwritten pending
results; otherwise (with the header write succeeding) it processes exactly
the user's unwritten results — a list sorted ascending by creation time and
a permutation of the user's unwritten rows — marks written precisely those
whose write and mark succeed, leaves every failing one unwritten without
aborting the rest, and returns exactly the number successfully written. -/
theorem C2_flush_pending_spec (env : SheetEnv) (st : StorageState)
    (now u : String) :
    (pyTruthyOptStr (st.sheets u) = false →
      flush_pending_to_user_sheet env st now u = (0, st)) ∧
    (fetch_unwritten_results st u = [] →
      flush_pending_to_user_sheet env st now u = (0, st)) ∧
    (pyTruthyOptStr (st.sheets u) = true →
      fetch_unwritten_results st u ≠ [] →
      env.ensureHeaders = .ok () →
      (fetch_unwritten_results st u).Pairwise byCreated ∧
      (fetch_unwritten_results st u).Perm
        (st.pending.filter (fun r => r.user_id = u && r.written = false)) ∧
      (flush_pending_to_user_sheet env st now u).1 =
        ((fetch_unwritten_results st u).filter (procOk env now u)).length ∧
      (flush_pending_to_user_sheet env st now u).2.sheets = st.sheets ∧
      (flush_pending_to_user_sheet env st now u).2.pending =
        st.pending.map (fun p =>
          if ((fetch_unwritten_results st u).filter (procOk env now u)).any
              (fun r => r.id = p.id)
          then { p with written := true } else p)) := by
  refine ⟨?_, ?_, ?_⟩
  · intro h
    simp [flush_pending_to_user_sheet, h]
  · intro h
    simp only [flush_pending_to_user_sheet, h]
    split <;> simp
  · intro h1 h2 h3
    refine ⟨?_, ?_, ?_, ?_, ?_⟩
    · exact List.sorted_insertionSort byCreated _
    · exact List.perm_insertionSort byCreated _
    · simp only [flush_pending_to_user_sheet, h1, h3, Bool.not_true,
        Bool.false_eq_true, if_false, List.isEmpty_iff, h2, if_neg h2]
      simpa using flushLoop_count env now u _ 0 st
    · simp only [flush_pending_to_user_sheet, h1, h3, Bool.not_true,
        Bool.false_eq_true, if_false, List.isEmpty_iff, if_neg h2]
      exact flushLoop_sheets env now u _ 0 st
    · simp only [flush_pending_to_user_sheet, h1, h3, Bool.not_true,
        Bool.false_eq_true, if_false, List.isEmpty_iff, if_neg h2]
      exact flushLoop_pending env now u _ 0 st

/-- A storage state with a bound sheet and two unwritten pending results
(insertion order opposite to creation order). -/
def stC2 : StorageState :=
  { sheets := fun v => if v = "u1" then some "sheet1" else none,
    pending :=
      [⟨2, "u1", "https://b.com", "{}", "2024-01-02T00:00:00", false⟩,
       ⟨1, "u1", "https://a.com", "{}", "2024-01-01T00:00:00", false⟩] }

/-- A sheet environment whose `write_row` fails for record 2 only. -/
def envC2 : SheetEnv :=
  { ensureHeaders := .ok (),
    writeRow := fun id _ => if id = 2 then .error "APIError" else .ok (),
    markWritten := fun _ => .ok () }

/-- **C2 witness**: with two queued results and the write of the second
(by creation order) failing, the flush returns 1, marks record 1 written and
leaves record 2 unwritten. -/
theorem C2_flush_pending_spec_witness :
    (flush_pending_to_user_sheet envC2 stC2 "now" "u1").1 = 1 ∧
    (flush_pending_to_user_sheet envC2 stC2 "now" "u1").2.pending =
      [⟨2, "u1", "https://b.com", "{}", "2024-01-02T00:00:00", false⟩,
       ⟨1, "u1", "https://a.com", "{}", "2024-01-01T00:00:00", true⟩] := by
  obtain ⟨-, -, h⟩ := C2_flush_pending_spec envC2 stC2 "now" "u1"
  obtain ⟨-, -, hc, -, hp⟩ := h (by decide) (by decide) rfl
  constructor
  · rw [hc]; decide
  · rw [hp]; decide

/-- A sheet environment in which every adapter call succeeds. -/
def envAllOk : SheetEnv :=
  { ensureHeaders := .ok (),
    writeRow := fun _ _ => .ok (),
    markWritten := fun _ => .ok () }

/-- A bound user with a single pending result whose stored JSON is
malformed. -/
def stC3 : StorageState :=
  { sheets := fun v => if v = "u" then some "sheet1" else none,
    pending := [⟨1, "u", "https://x.com", "not json", "2024-01-01T00:00:00", false⟩] }

/-- **C3 counterexample**: a pending record with malformed `result_json` is
*not* skipped by the flush loop — `convert_json_to_row` yields the degraded
placeholder row (it never raises), which the loop writes, after which the
record is marked written and counted: the flush returns 1 and leaves the
record with `written = 1`, contradicting the claim that the batch flush path
leaves it unwritten and never writes the degraded row. -/
theorem C3_flush_malformed_counterexample :
    (flush_pending_to_user_sheet envAllOk stC3 "2024-02-01 00:00:00" "u").1 = 1 ∧
    (flush_pending_to_user_sheet envAllOk stC3 "2024-02-01 00:00:00" "u").2.pending =
      [⟨1, "u", "https://x.com", "not json", "2024-01-01T00:00:00", true⟩] ∧
    convert_json_to_row "2024-02-01 00:00:00" "not json" "u" "https://x.com" =
      ["2024-02-01 00:00:00", "u", "https://x.com", "",
       "Ошибка обработки: Expecting value", "", "", "", "", "", "", "", "", "",
       "", "", "", "", "", "", "", "", "", "", "", "", "", ""] := by
  decide

/-- **C3 (amended)**: malformed stored JSON never aborts the flush loop, but
not by skipping — `convert_json_to_row` catches its own failures and returns
the degraded placeholder row (timestamp, user id, url, empty pricing URL,
`Ошибка обработки: <message>`, 23 empty columns) on the batch flush path
exactly as on the direct-write path of `write_or_defer`; consequently, when
the write and mark succeed, the flush loop writes the degraded row, marks
the record written and counts it like any other record. -/
theorem C3_flush_malformed_amended :
    (∀ (now u url j e : String), jsonLoads j = .error e →
      convert_json_to_row now j u url = degradedRow now u url e ∧
      (convert_json_to_row now j u url).length = 28) ∧
    (∀ (env : SheetEnv) (st : StorageState) (now u : String),
      pyTruthyOptStr (st.sheets u) = true →
      fetch_unwritten_results st u ≠ [] →
      env.ensureHeaders = .ok () →
      (∀ id row, env.writeRow id row = .ok ()) →
      (∀ id, env.markWritten id = .ok ()) →
      (flush_pending_to_user_sheet env st now u).1 =
        (fetch_unwritten_results st u).length ∧
      (flush_pending_to_user_sheet env st now u).2.pending =
        st.pending.map (fun p =>
          if (fetch_unwritten_results st u).any (fun r => r.id = p.id)
          then { p with written := true } else p)) := by
  constructor
  · intro now u url j e h
    refine ⟨by simp [convert_json_to_row, h], ?_⟩
    simp [convert_json_to_row, h, degradedRow]
  · intro env st now u h1 h2 h3 hw hm
    have hpk : ∀ r, procOk env now u r = true := by
      intro r
      simp [procOk, hw, hm]
    have hfilter : (fetch_unwritten_results st u).filter (procOk env now u) =
        fetch_unwritten_results st u :=
      List.filter_eq_self.mpr (fun a _ => hpk a)
    constructor
    · simp only [flush_pending_to_user_sheet, h1, h3, Bool.not_true,
        Bool.false_eq_true, if_false, List.isEmpty_iff, if_neg h2]
      rw [flushLoop_count env now u _ 0 st, hfilter]
      simp
    · simp only [flush_pending_to_user_sheet, h1, h3, Bool.not_true,
        Bool.false_eq_true, if_false, List.isEmpty_iff, if_neg h2]
      rw [flushLoop_pending env now u _ 0 st, hfilter]

/-- **C3 amended witness**: at the concrete malformed-JSON state, the flush
transfers the single record (returning 1 and marking it written), and the
conversion of an unparsable payload is the degraded row. -/
theorem C3_flush_malformed_amended_witness :
    convert_json_to_row "t0" "oops" "u" "https://x.com" =
      degradedRow "t0" "u" "https://x.com" "Expecting value" ∧
    (flush_pending_to_user_sheet envAllOk stC3 "t0" "u").1 = 1 ∧
    (flush_pending_to_user_sheet envAllOk stC3 "t0" "u").2.pending =
      [⟨1, "u", "https://x.com", "not json", "2024-01-01T00:00:00", true⟩] := by
  obtain ⟨h1, h2⟩ := C3_flush_malformed_amended
  obtain ⟨hcount, hpend⟩ :=
    h2 envAllOk stC3 "t0" "u" (by decide) (by decide) rfl
      (fun _ _ => rfl) (fun _ => rfl)
  refine ⟨(h1 "t0" "u" "https://x.com" "oops" "Expecting value" rfl).1,
          ?_, ?_⟩
  · rw [hcount]; decide
  · rw [hpend]; decide

/-! ### The LLM reply mapping (claims C6 and C10) -/

theorem exceptMapM_congr (f g : α → Except String β) (l : List α)
    (h : ∀ x ∈ l, f x = g x) : exceptMapM f l = exceptMapM g l := by
  induction l with
  | nil => rfl
  | cons x xs ih =>
    simp only [exceptMapM, h x (List.mem_cons_self x xs),
      ih (fun y hy => h y (List.mem_cons_of_mem x hy))]

theorem exceptMapM_ok (f : α → Except String β) (g : α → β) (l : List α)
    (h : ∀ x ∈ l, f x = .ok (g x)) : exceptMapM f l = .ok (l.map g) := by
  induction l with
  | nil => rfl
  | cons x xs ih =>
    simp only [exceptMapM, h x (List.mem_cons_self x xs),
      ih (fun y hy => h y (List.mem_cons_of_mem x hy)), List.map_cons]

theorem exceptMapM_error (f : α → Except String β) (l : List α) (x : α)
    (hx : x ∈ l) (e : String) (he : f x = .error e) :
    ∃ f', exceptMapM f l = .error f' := by
  induction l with
  | nil => cases hx
  | cons y ys ih =>
    cases hy : f y with
    | error e2 => exact ⟨e2, by simp [exceptMapM, hy]⟩
    | ok b =>
      rcases List.mem_cons.mp hx with hxy | hxs
      · subst hxy; rw [hy] at he; cases he
      · obtain ⟨f', hf'⟩ := ih hxs
        exact ⟨f', by simp [exceptMapM, hy, hf']⟩

theorem objGet_mem (kvs : List (String × JValue)) (k : String) (v : JValue)
    (h : objGet kvs k = some v) : ∃ kv, kv ∈ kvs ∧ kv.1 = k ∧ kv.2 = v := by
  simp only [objGet, Option.map_eq_some'] at h
  obtain ⟨kv, hlast, hv⟩ := h
  have hmem := List.mem_of_mem_getLast? hlast
  have hk := List.of_mem_filter hmem
  exact ⟨kv, List.mem_of_mem_filter hmem, by simpa using hk, hv⟩

theorem objGet_filter (p : String → Bool) (kvs : List (String × JValue))
    (k : String) (hp : p k = true) :
    objGet (kvs.filter (fun kv => p kv.1)) k = objGet kvs k := by
  simp only [objGet, List.filter_filter]
  congr 1
  refine congrArg _ (List.filter_congr (fun kv _ => ?_))
  by_cases hk : kv.1 = k
  · simp [hk, hp]
  · simp [hk]

/-- The string a known key contributes to the constructed `FullResult`: the
value when the reply carries one, the empty string when the key is absent. -/
def strVal (kvs : List (String × JValue)) (k : String) : String :=
  match objGet kvs k with
  | some (.str s) => s
  | _ => ""

theorem validateStr_jGetD (kvs : List (String × JValue)) (k : String)
    (h : ∀ kv ∈ kvs, kv.1 = k → ∃ s : String, kv.2 = .str s) :
    validateStr (jGetD kvs k) = .ok (strVal kvs k) := by
  cases hg : objGet kvs k with
  | none => simp [jGetD, strVal, hg, validateStr]
  | some v =>
    obtain ⟨kv, hmem, hfst, hsnd⟩ := objGet_mem kvs k v hg
    obtain ⟨s, hs⟩ := h kv hmem hfst
    rw [hsnd] at hs
    subst hs
    simp [jGetD, strVal, hg, validateStr]

/-- **C6**: for every string-valued JSON object returned by the model, the
adapter constructs the Analysis Result successfully, with each of the 24
fields equal to the reply's value at the corresponding Russian key and the
empty string — never a "no data" placeholder — where the key is absent; and
entries under keys outside the known 24 are ignored (dropping them does not
change the result). -/
theorem C6_llm_mapping_total (data : List (String × JValue))
    (h : ∀ kv ∈ data, kv.1 ∈ russianKeys → ∃ s : String, kv.2 = .str s) :
    (∃ r, analyzeFromData (.obj data) = .ok r ∧
      r.1.fields = russianKeys.map (strVal data)) ∧
    (∀ k, objGet data k = none → strVal data k = "") ∧
    analyzeFromData
        (.obj (data.filter (fun kv => decide (kv.1 ∈ russianKeys)))) =
      analyzeFromData (.obj data) := by
  have hval : ∀ k ∈ russianKeys,
      validateStr (jGetD data k) = .ok (strVal data k) := by
    intro k hk
    exact validateStr_jGetD data k (fun kv hm hf => h kv hm (hf ▸ hk))
  have hmk : mkFullResultJ data =
      .ok (fullResultOfList (russianKeys.map (strVal data))) := by
    simp only [mkFullResultJ, exceptMapM_ok _ (strVal data) _ hval]
  refine ⟨?_, ?_, ?_⟩
  · cases hres : analyzeFromData (.obj data) with
    | error e =>
      simp only [analyzeFromData, hmk, bind, Except.bind, pure, Except.pure] at hres
      cases hres
    | ok r =>
      refine ⟨r, rfl, ?_⟩
      simp only [analyzeFromData, hmk, bind, Except.bind, pure, Except.pure] at hres
      injection hres with hpair
      rw [← hpair]
      simp only [FullResult.fields, fullResultOfList, russianKeys, List.map_cons,
        List.map_nil]
      rfl
  · intro k hk
    simp [strVal, hk]
  · have hsub : ∀ k ∈ russianKeys,
        objGet (data.filter (fun kv => decide (kv.1 ∈ russianKeys))) k =
          objGet data k := by
      intro k hk
      exact objGet_filter (fun s => decide (s ∈ russianKeys)) data k
        (decide_eq_true hk)
    have hg : ∀ k ∈ russianKeys,
        jGetD (data.filter (fun kv => decide (kv.1 ∈ russianKeys))) k =
          jGetD data k := by
      intro k hk
      simp only [jGetD, hsub k hk]
    have hmk2 : mkFullResultJ (data.filter (fun kv => decide (kv.1 ∈ russianKeys))) =
        mkFullResultJ data := by
      simp only [mkFullResultJ]
      rw [exceptMapM_congr _ _ russianKeys (fun k hk => by rw [hg k hk])]
    have hbr : objGet (data.filter (fun kv => decide (kv.1 ∈ russianKeys)))
        "Краткая сводка (3–4 пункта)" = objGet data "Краткая сводка (3–4 пункта)" :=
      hsub _ (by decide)
    simp only [analyzeFromData, hmk2, hbr]

/-- **C6 witness**: a concrete reply carrying one known key, one unknown key
and omitting the rest — the mapping succeeds, the known value lands in its
field, every omitted field is empty, and the unknown key is ignored. -/
theorem C6_llm_mapping_total_witness :
    (∃ r,
      analyzeFromData (.obj [("Выгоды", .str "польза"), ("неизвестно", .str "x")]) =
        .ok r ∧
      r.1.fields = russianKeys.map
        (strVal [("Выгоды", .str "польза"), ("неизвестно", .str "x")])) ∧
    (∀ k, objGet [("Выгоды", .str "польза"), ("неизвестно", .str "x")] k = none →
      strVal [("Выгоды", .str "польза"), ("неизвестно", .str "x")] k = "") ∧
    analyzeFromData
        (.obj (([("Выгоды", .str "польза"), ("неизвестно", .str "x")]).filter
          (fun kv => decide (kv.1 ∈ russianKeys)))) =
      analyzeFromData (.obj [("Выгоды", .str "польза"), ("неизвестно", .str "x")]) := by
  refine C6_llm_mapping_total _ ?_
  intro kv hkv _
  rcases List.mem_cons.mp hkv with h | h
  · exact ⟨"польза", by rw [h]⟩
  · rcases List.mem_cons.mp h with h2 | h2
    · exact ⟨"x", by rw [h2]⟩
    · cases h2

/-- **C10**: the empty-string defaulting is total only over string-valued
objects — when the parsed reply maps any of the 24 known Russian keys to a
non-string value (list, number, object, boolean or null), pydantic rejects
the field and `analyze_content` raises instead of returning a result. -/
theorem C10_nonstring_value_raises (data : List (String × JValue))
    (k : String) (v : JValue) (hk : k ∈ russianKeys)
    (hv : objGet data k = some v) (hns : ∀ s : String, v ≠ .str s) :
    ∃ e, analyzeFromData (.obj data) = .error e := by
  have hfail : ∃ e, validateStr (jGetD data k) = .error e := by
    rw [jGetD, hv]
    cases v with
    | str s => exact absurd rfl (hns s)
    | null => exact ⟨_, rfl⟩
    | bool b => exact ⟨_, rfl⟩
    | num raw => exact ⟨_, rfl⟩
    | arr xs => exact ⟨_, rfl⟩
    | obj kvs => exact ⟨_, rfl⟩
  obtain ⟨e, he⟩ := hfail
  obtain ⟨e', he'⟩ :=
    exceptMapM_error (fun k => validateStr (jGetD data k)) russianKeys k hk e he
  refine ⟨e', ?_⟩
  simp only [analyzeFromData, mkFullResultJ, he', bind, Except.bind]

/-- **C10 witness**: a reply giving the benefits key a number makes the
adapter raise. -/
theorem C10_nonstring_value_raises_witness :
    ∃ e, analyzeFromData (.obj [("Выгоды", .num "5")]) = .error e :=
  C10_nonstring_value_raises [("Выгоды", .num "5")] "Выгоды" (.num "5")
    (by decide) rfl (fun s h => JValue.noConfusion h)

/-! ### Pricing-link discovery (claim C7) -/

theorem pickPricing_eq_none (base : String) (L : List (String × String))
    (h : ∀ m ∈ L, hasPricingKeyword m.1 m.2 = false) :
    pickPricing base L = none := by
  induction L with
  | nil => rfl
  | cons m rest ih =>
    have hm := h m (List.mem_cons_self m rest)
    simp only [pickPricing, hm, Bool.false_and, Bool.false_eq_true, if_false]
    exact ih (fun x hx => h x (List.mem_cons_of_mem m hx))

theorem pickPricing_eq_some (base u : String) (L : List (String × String))
    (h : pickPricing base L = some u) :
    ∃ m ∈ L, u = pyUrljoin base m.1 ∧ hasPricingKeyword m.1 m.2 = true ∧
      pricingLinkOk m.1 base (pyUrljoin base m.1) = true := by
  induction L with
  | nil => cases h
  | cons m rest ih =>
    by_cases hc : (hasPricingKeyword m.1 m.2 &&
        pricingLinkOk m.1 base (pyUrljoin base m.1)) = true
    · rw [pickPricing, if_pos hc] at h
      obtain ⟨hkw, hok⟩ := (Bool.and_eq_true _ _).mp hc
      exact ⟨m, List.mem_cons_self m rest, (Option.some_inj.mp h).symm, hkw, hok⟩
    · rw [pickPricing, if_neg hc] at h
      obtain ⟨x, hx, hrest⟩ := ih h
      exact ⟨x, List.mem_cons_of_mem m hx, hrest⟩

/-- **C7**: `find_pricing_link` returns `https://example.com/prices` for a
home page containing `<a href="/prices">Цены</a>` over base
`https://example.com`; returns nothing when no anchor carries a pricing
keyword; any returned URL comes from a keyword-bearing anchor whose raw
href is not `#`/`mailto:`/`tel:` and whose resolved host equals the base
URL's host (so concrete `mailto:`, `tel:`, `#` and foreign-host pages yield
nothing); and keyword matching is case-insensitive in both the href and the
anchor text (upper-case `HREF="/PRICING"` and upper-case Cyrillic anchor
text are found). -/
theorem C7_find_pricing_link_spec :
    find_pricing_link "<html><body><a href=\"/prices\">Цены</a></body></html>"
      "https://example.com" = some "https://example.com/prices" ∧
    (∀ html base, (∀ m ∈ linkMatches html, hasPricingKeyword m.1 m.2 = false) →
      find_pricing_link html base = none) ∧
    (∀ html base u, find_pricing_link html base = some u →
      ∃ m ∈ linkMatches html, u = pyUrljoin base m.1 ∧
        hasPricingKeyword m.1 m.2 = true ∧
        (pyUrlparse [] u.data).netloc = (pyUrlparse [] base.data).netloc ∧
        isPrefixL "#".data m.1.data = false ∧
        isPrefixL "mailto:".data m.1.data = false ∧
        isPrefixL "tel:".data m.1.data = false) ∧
    find_pricing_link "<a href=\"/about\">О нас</a>" "https://example.com" = none ∧
    find_pricing_link "<a href=\"mailto:sales@x.com\">цены</a>"
      "https://example.com" = none ∧
    find_pricing_link "<a href=\"tel:+7999\">тарифы</a>"
      "https://example.com" = none ∧
    find_pricing_link "<a href=\"#pricing\">Цены</a>"
      "https://example.com" = none ∧
    find_pricing_link "<a href=\"https://other.com/prices\">Цены</a>"
      "https://example.com" = none ∧
    find_pricing_link "<A HREF=\"/PRICING\">Plans</A>"
      "https://example.com" = some "https://example.com/PRICING" ∧
    find_pricing_link "<a href=\"/info\">ЦЕНЫ</a>"
      "https://example.com" = some "https://example.com/info" := by
  refine ⟨by decide, ?_, ?_, by decide, by decide, by decide, by decide,
          by decide, by decide, by decide⟩
  · intro html base h
    exact pickPricing_eq_none base (linkMatches html) h
  · intro html base u h
    obtain ⟨m, hm, hu, hkw, hok⟩ :=
      pickPricing_eq_some base u (linkMatches html) h
    simp only [pricingLinkOk, Bool.and_eq_true, Bool.not_eq_true',
      decide_eq_true_eq] at hok
    obtain ⟨⟨⟨hnet, hanch⟩, hmail⟩, htel⟩ := hok
    exact ⟨m, hm, hu, hkw, by rw [hu]; exact hnet, hanch, hmail, htel⟩

/-- **C7 witness**: the general conjuncts at concrete pages — a page with
only a non-keyword anchor is refused via the no-keyword lemma, and the
successful `/prices` lookup factors through a keyword-bearing, same-host,
non-`#`/`mailto:`/`tel:` anchor. -/
theorem C7_find_pricing_link_spec_witness :
    find_pricing_link "<a href=\"/team\">Команда</a>" "https://example.com" =
      none ∧
    (∃ m ∈ linkMatches "<a href=\"/prices\">Цены</a>",
      "https://example.com/prices" = pyUrljoin "https://example.com" m.1 ∧
      hasPricingKeyword m.1 m.2 = true ∧
      (pyUrlparse [] "https://example.com/prices".data).netloc =
        (pyUrlparse [] "https://example.com".data).netloc ∧
      isPrefixL "#".data m.1.data = false ∧
      isPrefixL "mailto:".data m.1.data = false ∧
      isPrefixL "tel:".data m.1.data = false) := by
  obtain ⟨-, hnone, hsound, -⟩ := C7_find_pricing_link_spec
  constructor
  · exact hnone "<a href=\"/team\">Команда</a>" "https://example.com" (by decide)
  · exact hsound "<a href=\"/prices\">Цены</a>" "https://example.com"
      "https://example.com/prices" (by decide)

/-! ### The content bundle (claim C8) -/

/-- **C8**: `get_content_bundle(url)` short-circuits to an empty bundle
flagged `requires_js = true` — without touching the pricing page — when the
cleaned home text strips below 50 characters; otherwise the bundle carries
the home text with `requires_js` true exactly when the stripped text is
shorter than 500 characters, a discovered pricing page is included only when
its cleaned text strips above 50 characters, and a pricing-fetch failure is
swallowed, the home-only bundle still being returned. -/
theorem C8_get_content_bundle_spec (env : FetchEnv) (url html htext : String)
    (hn : normalize_url url ≠ "")
    (hf : env.fetch (normalize_url url) = .ok html)
    (ht : env.clean html = htext) :
    (htext = "" ∨ (pyStrip htext).length < 50 →
      get_content_bundle env url = .ok { home_text := "", requires_js := some true }) ∧
    (htext ≠ "" → 50 ≤ (pyStrip htext).length →
      (find_pricing_link html (normalize_url url) = none →
        get_content_bundle env url =
          .ok { home_text := htext,
                requires_js := some (decide ((pyStrip htext).length < 500)) }) ∧
      (∀ purl e, find_pricing_link html (normalize_url url) = some purl →
        env.fetch purl = .error e →
        get_content_bundle env url =
          .ok { home_text := htext,
                requires_js := some (decide ((pyStrip htext).length < 500)) }) ∧
      (∀ purl phtml, find_pricing_link html (normalize_url url) = some purl →
        env.fetch purl = .ok phtml →
        (env.clean phtml ≠ "" ∧ 50 < (pyStrip (env.clean phtml)).length →
          get_content_bundle env url =
            .ok { home_text := htext,
                  requires_js := some (decide ((pyStrip htext).length < 500)),
                  pricing_url := some purl,
                  pricing_text := some (env.clean phtml) }) ∧
        (¬ (env.clean phtml ≠ "" ∧ 50 < (pyStrip (env.clean phtml)).length) →
          get_content_bundle env url =
            .ok { home_text := htext,
                  requires_js := some (decide ((pyStrip htext).length < 500)) }))) := by
  constructor
  · intro hshort
    have hcond : (htext = "" || decide ((pyStrip htext).length < 50)) = true := by
      rcases hshort with h | h
      · simp [h]
      · simp [h]
    simp only [get_content_bundle, if_neg hn, hf, ht, hcond, Bool.true_eq,
      if_true]
  · intro hne hlen
    have hcond : (htext = "" || decide ((pyStrip htext).length < 50)) = false := by
      simp [hne, Nat.not_lt.mpr hlen]
    refine ⟨?_, ?_, ?_⟩
    · intro hfp
      simp only [get_content_bundle, if_neg hn, hf, ht, hcond, Bool.false_eq_true,
        if_false, hfp]
    · intro purl e hfp hpe
      simp only [get_content_bundle, if_neg hn, hf, ht, hcond, Bool.false_eq_true,
        if_false, hfp, hpe]
    · intro purl phtml hfp hpf
      constructor
      · intro hinc
        have hic : (env.clean phtml ≠ "" &&
            decide (50 < (pyStrip (env.clean phtml)).length)) = true := by
          simp [hinc.1, hinc.2]
        simp only [get_content_bundle, if_neg hn, hf, ht, hcond,
          Bool.false_eq_true, if_false, hfp, hpf, hic, if_true]
      · intro hninc
        have hic : (env.clean phtml ≠ "" &&
            decide (50 < (pyStrip (env.clean phtml)).length)) = false := by
          by_cases h1 : env.clean phtml = ""
          · simp [h1]
          · have h2 : ¬ 50 < (pyStrip (env.clean phtml)).length :=
              fun hgt => hninc ⟨h1, hgt⟩
            simp [h1, h2]
        simp only [get_content_bundle, if_neg hn, hf, ht, hcond,
          Bool.false_eq_true, if_false, hfp, hpf, hic, Bool.true_eq, if_false]

/-- A concrete home page (cleaned text is the page itself under the identity
cleaner) long enough to pass the 50-character gate and carrying a pricing
link. -/
def homeHtmlC8 : String :=
  "<a href=\"/prices\">Цены</a> about products and offers for customers 2024"

/-- A pricing page longer than 50 characters. -/
def pricingHtmlC8 : String :=
  "Тарифы: базовый 1000 руб, стандарт 2000 руб, премиум 5000 руб в месяц"

/-- A fetch environment serving the two pages, with the identity cleaner. -/
def envC8 : FetchEnv :=
  { fetch := fun u =>
      if u = "https://site.com" then .ok homeHtmlC8
      else if u = "https://site.com/prices" then .ok pricingHtmlC8
      else .error "404",
    clean := fun h => h }

/-- The same environment with the pricing fetch failing. -/
def envC8fail : FetchEnv :=
  { envC8 with fetch := fun u =>
      if u = "https://site.com" then .ok homeHtmlC8 else .error "timeout" }

/-- A fetch environment whose home page cleans to a short text. -/
def envC8short : FetchEnv :=
  { envC8 with fetch := fun _ => .ok "tiny page" }

/-- **C8 witness**: the short-text short-circuit, the included-pricing case
and the swallowed pricing-failure case at concrete environments. -/
theorem C8_get_content_bundle_spec_witness :
    get_content_bundle envC8short "site.com" =
      .ok { home_text := "", requires_js := some true } ∧
    get_content_bundle envC8 "site.com" =
      .ok { home_text := homeHtmlC8, requires_js := some true,
            pricing_url := some "https://site.com/prices",
            pricing_text := some pricingHtmlC8 } ∧
    get_content_bundle envC8fail "site.com" =
      .ok { home_text := homeHtmlC8, requires_js := some true } := by
  refine ⟨?_, ?_, ?_⟩
  · exact (C8_get_content_bundle_spec envC8short "site.com" "tiny page"
      "tiny page" (by decide) rfl rfl).1 (by decide)
  · have h := ((C8_get_content_bundle_spec envC8 "site.com" homeHtmlC8
      homeHtmlC8 (by decide) rfl rfl).2 (by decide) (by decide)).2.2
      "https://site.com/prices" pricingHtmlC8 (by decide) rfl
    have h2 := h.1 (by decide)
    rw [h2]
    rfl
  · have h := ((C8_get_content_bundle_spec envC8fail "site.com" homeHtmlC8
      homeHtmlC8 (by decide) rfl rfl).2 (by decide) (by decide)).2.1
      "https://site.com/prices" "timeout" (by decide) rfl
    rw [h]
    rfl

/-! ### URL normalization (claim C5)

Character-level groundwork for the idempotence analysis. -/

theorem charOfNatToNat (n : Nat) (h : Nat.isValidChar n) :
    (Char.ofNat n).toNat = n := by
  simp only [Char.ofNat, dif_pos h, Char.ofNatAux, Char.toNat]
  rfl

theorem char_eq_iff (a b : Char) : a = b ↔ a.toNat = b.toNat := by
  constructor
  · intro h; rw [h]
  · intro h
    apply Char.ext
    exact UInt32.toNat.inj h

/-- `pyToLower` either keeps a character or produces a lower-case letter
(code point in `[97,122]` or `[1072,1105]`). -/
theorem pyToLower_cases (c : Char) :
    pyToLower c = c ∨
    (97 ≤ (pyToLower c).toNat ∧ (pyToLower c).toNat ≤ 122) ∨
    (1072 ≤ (pyToLower c).toNat ∧ (pyToLower c).toNat ≤ 1105) := by
  unfold pyToLower
  split_ifs with h1 h2 h3
  · simp only [Bool.and_eq_true, decide_eq_true_eq] at h1
    have hv : Nat.isValidChar (c.toNat + 32) := Or.inl (by omega)
    rw [charOfNatToNat _ hv]
    right; left; omega
  · simp only [Bool.and_eq_true, decide_eq_true_eq] at h2
    have hv : Nat.isValidChar (c.toNat + 32) := Or.inl (by omega)
    rw [charOfNatToNat _ hv]
    right; right; omega
  · right; right
    constructor <;> decide
  · left; rfl

theorem pyToLower_eq_self (d : Char)
    (h1 : ¬(65 ≤ d.toNat ∧ d.toNat ≤ 90))
    (h2 : ¬(1040 ≤ d.toNat ∧ d.toNat ≤ 1071))
    (h3 : d.toNat ≠ 1025) : pyToLower d = d := by
  unfold pyToLower
  rw [if_neg (by simp only [Bool.and_eq_true, decide_eq_true_eq]; exact h1),
      if_neg (by simp only [Bool.and_eq_true, decide_eq_true_eq]; exact h2),
      if_neg (by simpa using h3)]

theorem pyToLower_idem (c : Char) : pyToLower (pyToLower c) = pyToLower c := by
  rcases pyToLower_cases c with h | h | h
  · rw [h]; exact h
  · exact pyToLower_eq_self _ (by omega) (by omega) (by omega)
  · exact pyToLower_eq_self _ (by omega) (by omega) (by omega)

/-- Lower-casing cannot produce a character with code point ≤ 64 or in
`[91,96]` (covering the URL delimiter and whitespace characters) that was
not already there. -/
theorem pyToLower_preserves_ne (c : Char) (k : Nat)
    (hk : k ≤ 64 ∨ (91 ≤ k ∧ k ≤ 96)) (hc : c.toNat ≠ k) :
    (pyToLower c).toNat ≠ k := by
  rcases pyToLower_cases c with h | h | h
  · rw [h]; exact hc
  · omega
  · omega

theorem lowerL_idem (l : List Char) : lowerL (lowerL l) = lowerL l := by
  simp only [lowerL, List.map_map]
  exact List.map_congr_left (fun c _ => pyToLower_idem c)

theorem stopC_pyToLower (c : Char) (h : stopC c = false) :
    stopC (pyToLower c) = false := by
  simp only [stopC, Bool.or_eq_false_iff, decide_eq_false_iff_not,
    char_eq_iff] at h ⊢
  obtain ⟨⟨hs, hq⟩, hh⟩ := h
  exact ⟨⟨pyToLower_preserves_ne c _ (by left; decide) hs,
          pyToLower_preserves_ne c _ (by left; decide) hq⟩,
         pyToLower_preserves_ne c _ (by left; decide) hh⟩

theorem unsafeC_pyToLower (c : Char) (h : unsafeC c = false) :
    unsafeC (pyToLower c) = false := by
  simp only [unsafeC, Bool.or_eq_false_iff, decide_eq_false_iff_not,
    char_eq_iff] at h ⊢
  obtain ⟨⟨ht, hr⟩, hn⟩ := h
  exact ⟨⟨pyToLower_preserves_ne c _ (by left; decide) ht,
          pyToLower_preserves_ne c _ (by left; decide) hr⟩,
         pyToLower_preserves_ne c _ (by left; decide) hn⟩


/-! List-splitting groundwork. -/

theorem takeWhile_all_append {p : Char → Bool} {a b : List Char}
    (h : ∀ c ∈ a, p c = true)
    (hy : match b with | [] => True | y :: _ => p y = false) :
    (a ++ b).takeWhile p = a ∧ (a ++ b).dropWhile p = b := by
  induction a with
  | nil =>
    simp only [List.nil_append]
    cases b with
    | nil => exact ⟨rfl, rfl⟩
    | cons y ys' =>
      simp only at hy
      simp [List.takeWhile_cons, List.dropWhile_cons, hy]
  | cons x xs' ih =>
    have hx : p x = true := h x (List.mem_cons_self x xs')
    obtain ⟨ht, hd⟩ := ih (fun c hc => h c (List.mem_cons_of_mem x hc))
    simp [List.takeWhile_cons, List.dropWhile_cons, hx, ht, hd]

theorem dropWhile_head_false {p : Char → Bool} :
    ∀ {l : List Char} {y : Char} {ys : List Char},
      l.dropWhile p = y :: ys → p y = false := by
  intro l
  induction l with
  | nil => intro y ys h; cases h
  | cons x xs ih =>
    intro y ys h
    by_cases hx : p x = true
    · rw [List.dropWhile_cons, if_pos hx] at h
      exact ih h
    · rw [List.dropWhile_cons, if_neg hx] at h
      cases h
      exact Bool.eq_false_iff.mpr hx

theorem splitOnFirst_not_mem (c : Char) (xs : List Char)
    (h : ∀ x ∈ xs, x ≠ c) : splitOnFirst c xs = (xs, []) := by
  have h' : ∀ x ∈ xs, (decide (x ≠ c)) = true := fun x hx => by
    simpa using h x hx
  have := takeWhile_all_append (b := []) h' trivial
  rw [List.append_nil] at this
  simp only [splitOnFirst]
  rw [this.1, this.2]
  rfl

theorem splitOnFirst_append (c : Char) (xs ys : List Char)
    (h : ∀ x ∈ xs, x ≠ c) : splitOnFirst c (xs ++ c :: ys) = (xs, ys) := by
  have h' : ∀ x ∈ xs, (decide (x ≠ c)) = true := fun x hx => by
    simpa using h x hx
  have hb : match c :: ys with
    | [] => True
    | y :: _ => (decide (y ≠ c)) = false := by simp
  have := takeWhile_all_append (b := c :: ys) h' hb
  simp only [splitOnFirst]
  rw [this.1, this.2]
  rfl

theorem isPrefixL_iff (pre l : List Char) :
    isPrefixL pre l = true ↔ ∃ r, l = pre ++ r := by
  induction pre generalizing l with
  | nil => simp [isPrefixL]
  | cons p ps ih =>
    cases l with
    | nil =>
      simp only [isPrefixL, Bool.false_eq_true, false_iff]
      rintro ⟨r, hr⟩
      cases hr
    | cons c cs =>
      simp only [isPrefixL, Bool.and_eq_true, decide_eq_true_eq, ih,
        List.cons_append, List.cons.injEq]
      constructor
      · rintro ⟨hpc, r, hr⟩
        exact ⟨r, hpc.symm, hr⟩
      · rintro ⟨r, hcp, hr⟩
        exact ⟨hcp.symm, r, hr⟩


/-! Parse characterization for scheme-prefixed inputs. -/

theorem normPrefixed_form (s : List Char) :
    ∃ sch r, (sch = "http".data ∨ sch = "https".data) ∧
      normPrefixed s = sch ++ ':' :: '/' :: '/' :: r := by
  unfold normPrefixed
  by_cases h1 : isPrefixL "http://".data (stripL s) = true
  · obtain ⟨r, hr⟩ := (isPrefixL_iff _ _).mp h1
    refine ⟨"http".data, r, Or.inl rfl, ?_⟩
    rw [if_pos (by rw [h1]; rfl), hr]
    rfl
  · by_cases h2 : isPrefixL "https://".data (stripL s) = true
    · obtain ⟨r, hr⟩ := (isPrefixL_iff _ _).mp h2
      refine ⟨"https".data, r, Or.inr rfl, ?_⟩
      rw [if_pos (by rw [h2]; simp), hr]
      rfl
    · refine ⟨"https".data, stripL s, Or.inr rfl, ?_⟩
      rw [if_neg (by simp [h1, h2])]
      rfl

theorem pyUrlsplit_scheme_form (sch r : List Char)
    (hsch : sch = "http".data ∨ sch = "https".data) :
    pyUrlsplit [] (sch ++ ':' :: '/' :: '/' :: r) =
      ⟨sch,
       (r.filter (fun c => !unsafeC c)).takeWhile (fun c => !stopC c),
       (splitOnFirst '?' (splitOnFirst '#'
         ((r.filter (fun c => !unsafeC c)).dropWhile (fun c => !stopC c))).1).1,
       (splitOnFirst '?' (splitOnFirst '#'
         ((r.filter (fun c => !unsafeC c)).dropWhile (fun c => !stopC c))).1).2,
       (splitOnFirst '#'
         ((r.filter (fun c => !unsafeC c)).dropWhile (fun c => !stopC c))).2⟩ := by
  have hfil : (sch ++ ':' :: '/' :: '/' :: r).filter (fun c => !unsafeC c) =
      sch ++ ':' :: '/' :: '/' :: r.filter (fun c => !unsafeC c) := by
    rw [List.filter_append]
    rcases hsch with h | h <;> subst h <;> rfl
  have hpre : (sch ++ ':' :: '/' :: '/' :: r.filter (fun c => !unsafeC c)).takeWhile
        (fun c => decide (c ≠ ':')) = sch ∧
      (sch ++ ':' :: '/' :: '/' :: r.filter (fun c => !unsafeC c)).dropWhile
        (fun c => decide (c ≠ ':')) = ':' :: '/' :: '/' :: r.filter (fun c => !unsafeC c) := by
    refine takeWhile_all_append ?_ (by simp)
    rcases hsch with h | h <;> subst h <;> decide
  have hdrop : (sch ++ ':' :: '/' :: '/' :: r.filter (fun c => !unsafeC c)).drop
      (sch.length + 1) = '/' :: '/' :: r.filter (fun c => !unsafeC c) := by
    have : sch ++ ':' :: '/' :: '/' :: r.filter (fun c => !unsafeC c) =
        (sch ++ [':']) ++ '/' :: '/' :: r.filter (fun c => !unsafeC c) := by simp
    rw [this]
    have hlen : (sch ++ [':']).length = sch.length + 1 := by simp
    rw [← hlen, List.drop_left]
  have hvalid : validScheme sch = true := by
    rcases hsch with h | h <;> subst h <;> decide
  have hlow : lowerL sch = sch := by
    rcases hsch with h | h <;> subst h <;> decide
  simp only [pyUrlsplit, hfil, hpre.1, hpre.2]
  rw [if_pos ?cond]
  case cond =>
    rw [hvalid]
    simp only [Bool.and_true]
    simp [List.length_append]
  simp only [hlow, hdrop]
  rw [if_pos (show List.take 2 ('/' :: '/' :: List.filter (fun c => !unsafeC c) r) =
    ['/', '/'] from rfl)]
  rfl


/-! `_splitparams` groundwork. -/

theorem contains_true_iff (x : List Char) (c : Char) :
    x.contains c = true ↔ c ∈ x := by
  simp [List.contains]

theorem head_append_left (l₁ l₂ : List Char) (h : l₁ ≠ []) :
    (l₁ ++ l₂).head? = l₁.head? := by
  cases l₁ with
  | nil => exact absurd rfl h
  | cons a tl => rfl

/-- Split a list at the first occurrence of `c`. -/
theorem splitFirstChar (c : Char) (x : List Char) (h : x.contains c = true) :
    ∃ a b, x = a ++ c :: b ∧ (∀ y ∈ a, y ≠ c) ∧
      x.takeWhile (fun y => decide (y ≠ c)) = a ∧
      x.dropWhile (fun y => decide (y ≠ c)) = c :: b := by
  have hmem : c ∈ x := (contains_true_iff x c).mp h
  have hsplit := (List.takeWhile_append_dropWhile
    (p := fun y => decide (y ≠ c)) (l := x)).symm
  cases hd : x.dropWhile (fun y => decide (y ≠ c)) with
  | nil =>
    exfalso
    rw [hd, List.append_nil] at hsplit
    have := List.mem_takeWhile_imp (p := fun y => decide (y ≠ c))
      (l := x) (hsplit ▸ hmem)
    simp at this
  | cons y b =>
    have hy : (fun y => decide (y ≠ c)) y = false := dropWhile_head_false hd
    have hyc : y = c := by simpa using hy
    rw [hd, hyc] at hsplit
    refine ⟨x.takeWhile (fun y => decide (y ≠ c)), b, hsplit, ?_, rfl, by rw [hyc]⟩
    intro z hz
    simpa using List.mem_takeWhile_imp hz

/-- Split a list at the last occurrence of `/`, matching the reverse
computation of `pySplitParams`. -/
theorem splitLastSlash (x : List Char) (h : x.contains '/' = true) :
    ∃ pre seg, x = (pre ++ ['/']) ++ seg ∧ (∀ c ∈ seg, c ≠ '/') ∧
      (x.reverse.takeWhile (fun c => decide (c ≠ '/'))).reverse = seg ∧
      x.take (x.length - seg.length) = pre ++ ['/'] := by
  have hmem : '/' ∈ x := (contains_true_iff x '/').mp h
  have hsplit := (List.takeWhile_append_dropWhile
    (p := fun c => decide (c ≠ '/')) (l := x.reverse)).symm
  cases hd : x.reverse.dropWhile (fun c => decide (c ≠ '/')) with
  | nil =>
    exfalso
    rw [hd, List.append_nil] at hsplit
    have hmr : '/' ∈ x.reverse := List.mem_reverse.mpr hmem
    have := List.mem_takeWhile_imp (p := fun c => decide (c ≠ '/'))
      (l := x.reverse) (hsplit ▸ hmr)
    simp at this
  | cons y restR =>
    have hy : (fun c => decide (c ≠ '/')) y = false := dropWhile_head_false hd
    have hyc : y = '/' := by simpa using hy
    rw [hd, hyc] at hsplit
    have hxeq : x = (restR.reverse ++ ['/']) ++
        (x.reverse.takeWhile (fun c => decide (c ≠ '/'))).reverse := by
      have h2 := congrArg List.reverse hsplit
      rw [List.reverse_reverse, List.reverse_append, List.reverse_cons] at h2
      exact h2
    refine ⟨restR.reverse, (x.reverse.takeWhile (fun c => decide (c ≠ '/'))).reverse,
      hxeq, ?_, rfl, ?_⟩
    · intro z hz
      have hz2 : z ∈ x.reverse.takeWhile (fun c => decide (c ≠ '/')) :=
        List.mem_reverse.mp hz
      simpa using List.mem_takeWhile_imp hz2
    · have hL := congrArg List.length hsplit
      simp only [List.length_reverse, List.length_append, List.length_cons] at hL
      have hlen2 : x.length -
          (x.reverse.takeWhile (fun c => decide (c ≠ '/'))).reverse.length =
          (restR.reverse ++ ['/']).length := by
        simp only [List.length_reverse, List.length_append, List.length_singleton]
        omega
      rw [hlen2]
      conv_lhs => rw [hxeq]
      exact List.take_left _ _


/-- The re-splitting behaviour of `_splitparams` needed for idempotence:
path and params characters come from the input, params carry no `/`,
re-splitting the path yields no params, path-plus-`;`-plus-params is the
input back, and a non-empty path keeps the input's first character. -/
theorem pySplitParams_spec (x : List Char) :
    (∀ c ∈ (pySplitParams x).1, c ∈ x) ∧
    (∀ c ∈ (pySplitParams x).2, c ∈ x ∧ c ≠ '/') ∧
    pySplitParams (pySplitParams x).1 = ((pySplitParams x).1, []) ∧
    ((pySplitParams x).2 ≠ [] →
      (pySplitParams x).1 ++ ';' :: (pySplitParams x).2 = x) ∧
    ((pySplitParams x).1 ≠ [] → (pySplitParams x).1.head? = x.head?) := by
  by_cases hsl : x.contains '/' = true
  · obtain ⟨pre, seg, hx, hsegslash, hsegR, htake⟩ := splitLastSlash x hsl
    have hx1 : pySplitParams x = pySplitSeg x seg := by
      simp only [pySplitParams, hsl, if_true, hsegR]
    by_cases hss : seg.contains ';' = true
    · obtain ⟨sa, sb, hseg_eq, hsa, hsat, hsad⟩ := splitFirstChar ';' seg hss
      have hx2 : pySplitParams x = ((pre ++ ['/']) ++ sa, sb) := by
        rw [hx1]
        simp only [pySplitSeg, hss, if_true, hsat, hsad, htake, List.drop_one,
          List.tail_cons]
      have hsa_sub : ∀ c ∈ sa, c ∈ seg := by
        intro c hc
        rw [hseg_eq]
        exact List.mem_append_left _ hc
      have hsb_sub : ∀ c ∈ sb, c ∈ seg := by
        intro c hc
        rw [hseg_eq]
        exact List.mem_append_right _ (List.mem_cons_of_mem _ hc)
      rw [hx2]
      refine ⟨?_, ?_, ?_, ?_, ?_⟩
      · intro c hc
        rw [hx]
        rcases List.mem_append.mp hc with h | h
        · exact List.mem_append_left _ h
        · exact List.mem_append_right _ (hsa_sub c h)
      · intro c hc
        exact ⟨hx ▸ List.mem_append_right _ (hsb_sub c hc),
               hsegslash c (hsb_sub c hc)⟩
      · have hmem : '/' ∈ (pre ++ ['/']) ++ sa :=
          List.mem_append_left _ (List.mem_append_right _ (List.mem_singleton.mpr rfl))
        have hsl2 : ((pre ++ ['/']) ++ sa).contains '/' = true :=
          (contains_true_iff _ '/').mpr hmem
        have hsa_nosl : ∀ c ∈ sa, c ≠ '/' := fun c hc => hsegslash c (hsa_sub c hc)
        have hrev : (((pre ++ ['/']) ++ sa).reverse.takeWhile
            (fun c => decide (c ≠ '/'))).reverse = sa := by
          rw [List.reverse_append, List.reverse_append]
          have hb : List.takeWhile (fun c => decide (c ≠ '/'))
              (sa.reverse ++ (['/'].reverse ++ pre.reverse)) = sa.reverse := by
            have := takeWhile_all_append (p := fun c => decide (c ≠ '/'))
              (a := sa.reverse) (b := ['/'].reverse ++ pre.reverse)
              (fun c hc => by simpa using hsa_nosl c (List.mem_reverse.mp hc))
              (by simp)
            exact this.1
          rw [hb, List.reverse_reverse]
        have htk : ((pre ++ ['/']) ++ sa).take
            (((pre ++ ['/']) ++ sa).length - sa.length) = pre ++ ['/'] := by
          have hlen : ((pre ++ ['/']) ++ sa).length - sa.length =
              (pre ++ ['/']).length := by simp; omega
          rw [hlen]
          exact List.take_left _ _
        have hss2 : sa.contains ';' = false := by
          by_contra hcn
          have : ';' ∈ sa := (contains_true_iff _ ';').mp
            (Bool.not_eq_false _ ▸ (by simpa using hcn))
          exact hsa ';' this rfl
        simp only [pySplitParams, hsl2, if_true, hrev, pySplitSeg, hss2,
          Bool.false_eq_true, if_false]
      · intro _
        rw [List.append_assoc, ← hseg_eq, ← hx]
      · intro _
        rw [hx]
        rw [head_append_left (pre ++ ['/']) sa (by simp),
            head_append_left (pre ++ ['/']) seg (by simp)]
    · have hss2 : seg.contains ';' = false := Bool.not_eq_true _ ▸ (by simpa using hss)
      have hx2 : pySplitParams x = (x, []) := by
        rw [hx1]
        simp only [pySplitSeg, hss2, Bool.false_eq_true, if_false]
      rw [hx2]
      exact ⟨fun c hc => hc, fun c hc => absurd hc (List.not_mem_nil c),
             hx2, fun h => absurd rfl h, fun _ => rfl⟩
  · have hslf : x.contains '/' = false := Bool.not_eq_true _ ▸ (by simpa using hsl)
    by_cases hss : x.contains ';' = true
    · obtain ⟨a, b, hxe, ha, hat, had⟩ := splitFirstChar ';' x hss
      have hx2 : pySplitParams x = (a, b) := by
        simp only [pySplitParams, hslf, Bool.false_eq_true, if_false, hss,
          if_true, hat, had, List.drop_one, List.tail_cons]
      have ha_sub : ∀ c ∈ a, c ∈ x := by
        intro c hc
        rw [hxe]
        exact List.mem_append_left _ hc
      have hb_sub : ∀ c ∈ b, c ∈ x := by
        intro c hc
        rw [hxe]
        exact List.mem_append_right _ (List.mem_cons_of_mem _ hc)
      have hnosl : ∀ c ∈ x, c ≠ '/' := by
        intro c hc hceq
        subst hceq
        exact absurd ((contains_true_iff x '/').mpr hc) (by rw [hslf]; simp)
      rw [hx2]
      refine ⟨ha_sub, fun c hc => ⟨hb_sub c hc, hnosl c (hb_sub c hc)⟩, ?_, ?_, ?_⟩
      · have hasl : a.contains '/' = false := by
          by_contra hcn
          have : '/' ∈ a := (contains_true_iff _ '/').mp (by simpa using hcn)
          exact hnosl '/' (ha_sub '/' this) rfl
        have hasc : a.contains ';' = false := by
          by_contra hcn
          have : ';' ∈ a := (contains_true_iff _ ';').mp (by simpa using hcn)
          exact ha ';' this rfl
        simp only [pySplitParams, hasl, Bool.false_eq_true, if_false, hasc]
      · intro _
        exact hxe.symm
      · intro h
        rw [hxe]
        rw [head_append_left _ _ h]
    · have hssf : x.contains ';' = false := Bool.not_eq_true _ ▸ (by simpa using hss)
      have hx2 : pySplitParams x = (x, []) := by
        simp only [pySplitParams, hslf, Bool.false_eq_true, if_false, hssf]
      rw [hx2]
      exact ⟨fun c hc => hc, fun c hc => absurd hc (List.not_mem_nil c),
             hx2, fun h => absurd rfl h, fun _ => rfl⟩


/-! The canonical form produced by `normalize_url` and its re-parse. -/

/-- `'?' + q` / `'#' + f` when non-empty, as `urlunsplit` appends them. -/
def optPrefixed (c : Char) (l : List Char) : List Char :=
  if l ≠ [] then c :: l else []

/-- The path-plus-params portion as `urlunparse`/`urlunsplit` assemble it:
rejoin `;params`, then root the result with `/` when needed. -/
def mergedPath (p par : List Char) : List Char :=
  let m := if par ≠ [] then p ++ ';' :: par else p
  if m ≠ [] && m.take 1 ≠ ['/'] then '/' :: m else m

theorem unparse_netloc_form (n p par q f : List Char) (hn : n ≠ []) :
    pyUrlunparse "https".data n p par q f =
      "https".data ++ ':' :: '/' :: '/' ::
        (n ++ mergedPath p par ++ optPrefixed '?' q ++ optPrefixed '#' f) := by
  simp only [pyUrlunparse, pyUrlunsplit, mergedPath, optPrefixed]
  by_cases hq : q = [] <;> by_cases hf : f = [] <;>
    simp [hq, hf, hn, List.append_assoc]

theorem reparse_form (n R : List Char)
    (hnstop : ∀ c ∈ n, stopC c = false)
    (hnunsOk : ∀ c ∈ n, unsafeC c = false)
    (hRunsOk : ∀ c ∈ R, unsafeC c = false)
    (hR : R = [] ∨ ∃ c tl, R = c :: tl ∧ stopC c = true) :
    pyUrlsplit [] ("https".data ++ ':' :: '/' :: '/' :: (n ++ R)) =
      ⟨"https".data, n,
       (splitOnFirst '?' (splitOnFirst '#' R).1).1,
       (splitOnFirst '?' (splitOnFirst '#' R).1).2,
       (splitOnFirst '#' R).2⟩ := by
  rw [pyUrlsplit_scheme_form "https".data (n ++ R) (Or.inr rfl)]
  have hfil : (n ++ R).filter (fun c => !unsafeC c) = n ++ R :=
    List.filter_eq_self.mpr (fun c hc => by
      rcases List.mem_append.mp hc with h | h
      · simp [hnunsOk c h]
      · simp [hRunsOk c h])
  rw [hfil]
  have htd := takeWhile_all_append (p := fun c => !stopC c) (a := n) (b := R)
    (fun c hc => by simp [hnstop c hc])
    (by
      rcases hR with h | ⟨c, tl, hc, hstop⟩
      · rw [h]; trivial
      · rw [hc]; simp [hstop])
  rw [htd.1, htd.2]

theorem pySplitParams_slash_semi (par : List Char) (hpar : ∀ c ∈ par, c ≠ '/') :
    pySplitParams ('/' :: ';' :: par) = (['/'], par) := by
  have hcon : ('/' :: ';' :: par).contains '/' = true := by
    rw [contains_true_iff]
    exact List.mem_cons_self _ _
  have hrev : ('/' :: ';' :: par).reverse = (par.reverse ++ [';']) ++ ['/'] := by
    simp
  have htw : (('/' :: ';' :: par).reverse.takeWhile
      (fun c => decide (c ≠ '/'))).reverse = ';' :: par := by
    rw [hrev]
    have := takeWhile_all_append (p := fun c => decide (c ≠ '/'))
      (a := par.reverse ++ [';']) (b := ['/'])
      (fun c hc => by
        rcases List.mem_append.mp hc with h | h
        · simpa using hpar c (List.mem_reverse.mp h)
        · simp at h; simp [h])
      (by simp)
    rw [this.1]
    simp
  have hsegc : (';' :: par).contains ';' = true := by
    rw [contains_true_iff]
    exact List.mem_cons_self _ _
  simp only [pySplitParams, hcon, if_true, htw, pySplitSeg, hsegc]
  have h1 : ('/' :: ';' :: par).length - (';' :: par).length = 1 := by simp
  have h2 : List.takeWhile (fun c => decide (c ≠ ';')) (';' :: par) = [] := by
    simp [List.takeWhile_cons]
  have h3 : List.dropWhile (fun c => decide (c ≠ ';')) (';' :: par) = ';' :: par := by
    simp [List.dropWhile_cons]
  rw [h1, h2, h3]
  simp


theorem mergedPath_resplit (p par : List Char)
    (hpar_noslash : ∀ c ∈ par, c ≠ '/')
    (hresplit : pySplitParams p = (p, []))
    (hmerge : par ≠ [] → pySplitParams (p ++ ';' :: par) = (p, par))
    (hhead : p ≠ [] → p.head? = some '/') :
    mergedPath
      (if (pySplitParams (mergedPath (if p = ['/'] then [] else p) par)).1 = ['/']
       then []
       else (pySplitParams (mergedPath (if p = ['/'] then [] else p) par)).1)
      (pySplitParams (mergedPath (if p = ['/'] then [] else p) par)).2
    = mergedPath (if p = ['/'] then [] else p) par := by
  by_cases hpar0 : par = []
  · subst hpar0
    by_cases hp0 : p = []
    · subst hp0
      decide
    · by_cases hps : p = ['/']
      · subst hps
        decide
      · obtain ⟨t, hpt⟩ : ∃ t, p = '/' :: t := by
          cases p with
          | nil => exact absurd rfl hp0
          | cons a t =>
            have h := hhead hp0
            simp only [List.head?_cons, Option.some.injEq] at h
            exact ⟨t, by rw [h]⟩
        subst hpt
        rw [if_neg hps]
        have hM : mergedPath ('/' :: t) [] = '/' :: t := by
          simp [mergedPath]
        rw [hM, hresplit]
        rw [if_neg hps, hM]
  · by_cases hpC : (if p = ['/'] then [] else p) = []
    · rw [hpC]
      have hM : mergedPath [] par = '/' :: ';' :: par := by
        simp [mergedPath, hpar0]
      rw [hM, pySplitParams_slash_semi par hpar_noslash]
      rw [if_pos rfl]
      show mergedPath [] par = '/' :: ';' :: par
      exact hM
    · have hps : p ≠ ['/'] := by
        intro h
        rw [h] at hpC
        exact hpC rfl
      have hp0 : p ≠ [] := by
        intro h
        rw [if_neg hps] at hpC
        exact hpC h
      obtain ⟨t, hpt⟩ : ∃ t, p = '/' :: t := by
        cases p with
        | nil => exact absurd rfl hp0
        | cons a t =>
          have h := hhead hp0
          simp only [List.head?_cons, Option.some.injEq] at h
          exact ⟨t, by rw [h]⟩
      subst hpt
      rw [if_neg hps]
      have hM : mergedPath ('/' :: t) par = '/' :: t ++ ';' :: par := by
        simp [mergedPath, hpar0]
      rw [hM, hmerge hpar0]
      rw [if_neg hps, hM]


theorem optPrefixed_mem {c x : Char} {l : List Char}
    (h : x ∈ optPrefixed c l) : x = c ∨ x ∈ l := by
  unfold optPrefixed at h
  split at h
  · rcases List.mem_cons.mp h with h | h
    · exact Or.inl h
    · exact Or.inr h
  · cases h

theorem normCore_fixed (n M q f t : List Char)
    (hn : n ≠ [])
    (hlow : lowerL n = n)
    (hwww : isPrefixL "www.".data n = false)
    (hnstop : ∀ c ∈ n, stopC c = false)
    (hnuns : ∀ c ∈ n, unsafeC c = false)
    (hMuns : ∀ c ∈ M, unsafeC c = false)
    (hMq : ∀ c ∈ M, c ≠ '?')
    (hMf : ∀ c ∈ M, c ≠ '#')
    (hMhead : M = [] ∨ M.head? = some '/')
    (hquns : ∀ c ∈ q, unsafeC c = false)
    (hqf : ∀ c ∈ q, c ≠ '#')
    (hfuns : ∀ c ∈ f, unsafeC c = false)
    (hMsplit : mergedPath
      (if (pySplitParams M).1 = ['/'] then [] else (pySplitParams M).1)
      (pySplitParams M).2 = M)
    (ht : t = "https".data ++ ':' :: '/' :: '/' ::
        (n ++ M ++ optPrefixed '?' q ++ optPrefixed '#' f))
    (hstrip : stripL t = t) :
    normCore t = t := by
  have ht_ne : t ≠ [] := by rw [ht]; simp
  have hstrip_ne : stripL t ≠ [] := by rw [hstrip]; exact ht_ne
  have hpref : isPrefixL "https://".data t = true := by
    apply (isPrefixL_iff _ _).mpr
    exact ⟨n ++ M ++ optPrefixed '?' q ++ optPrefixed '#' f, by rw [ht]; rfl⟩
  have hnormpref : normPrefixed t = t := by
    simp [normPrefixed, hstrip, hpref]
  have hRuns : ∀ c ∈ M ++ optPrefixed '?' q ++ optPrefixed '#' f,
      unsafeC c = false := by
    intro c hc
    rcases List.mem_append.mp hc with hc | hc
    · rcases List.mem_append.mp hc with hc | hc
      · exact hMuns c hc
      · rcases optPrefixed_mem hc with h | h
        · rw [h]; decide
        · exact hquns c h
    · rcases optPrefixed_mem hc with h | h
      · rw [h]; decide
      · exact hfuns c h
  have hRstop : M ++ optPrefixed '?' q ++ optPrefixed '#' f = [] ∨
      ∃ c tl, M ++ optPrefixed '?' q ++ optPrefixed '#' f = c :: tl ∧
        stopC c = true := by
    rcases hMhead with hM0 | hMh
    · rw [hM0, List.nil_append]
      by_cases hq0 : q = []
      · by_cases hf0 : f = []
        · left
          simp [optPrefixed, hq0, hf0]
        · right
          exact ⟨'#', f, by simp [optPrefixed, hq0, hf0], by decide⟩
      · right
        refine ⟨'?', q ++ optPrefixed '#' f, ?_, by decide⟩
        have : optPrefixed '?' q = '?' :: q := by simp [optPrefixed, hq0]
        rw [this]
        rfl
    · cases M with
      | nil => cases hMh
      | cons a M' =>
        right
        simp only [List.head?_cons, Option.some.injEq] at hMh
        exact ⟨a, M' ++ optPrefixed '?' q ++ optPrefixed '#' f,
          by simp [List.append_assoc], by rw [hMh]; decide⟩
  have hsplit_t : pyUrlsplit [] t =
      ⟨"https".data, n,
       (splitOnFirst '?' (splitOnFirst '#'
         (M ++ optPrefixed '?' q ++ optPrefixed '#' f)).1).1,
       (splitOnFirst '?' (splitOnFirst '#'
         (M ++ optPrefixed '?' q ++ optPrefixed '#' f)).1).2,
       (splitOnFirst '#'
         (M ++ optPrefixed '?' q ++ optPrefixed '#' f)).2⟩ := by
    rw [ht, show n ++ M ++ optPrefixed '?' q ++ optPrefixed '#' f =
      n ++ (M ++ optPrefixed '?' q ++ optPrefixed '#' f) by
      simp [List.append_assoc]]
    exact reparse_form n _ hnstop hnuns hRuns hRstop
  have hF : splitOnFirst '#' (M ++ optPrefixed '?' q ++ optPrefixed '#' f) =
      (M ++ optPrefixed '?' q, f) := by
    by_cases hf0 : f = []
    · rw [hf0, show optPrefixed '#' ([] : List Char) = [] from by
        simp [optPrefixed], List.append_nil]
      apply splitOnFirst_not_mem
      intro x hx
      rcases List.mem_append.mp hx with h | h
      · exact hMf x h
      · rcases optPrefixed_mem h with h | h
        · rw [h]; decide
        · exact hqf x h
    · rw [show optPrefixed '#' f = '#' :: f from by simp [optPrefixed, hf0]]
      apply splitOnFirst_append
      intro x hx
      rcases List.mem_append.mp hx with h | h
      · exact hMf x h
      · rcases optPrefixed_mem h with h | h
        · rw [h]; decide
        · exact hqf x h
  have hQ : splitOnFirst '?' (M ++ optPrefixed '?' q) = (M, q) := by
    by_cases hq0 : q = []
    · rw [hq0, show optPrefixed '?' ([] : List Char) = [] from by
        simp [optPrefixed], List.append_nil]
      rw [splitOnFirst_not_mem _ _ hMq]
    · rw [show optPrefixed '?' q = '?' :: q from by simp [optPrefixed, hq0]]
      exact splitOnFirst_append _ _ _ hMq
  have hparse : pyUrlparse [] t =
      ⟨"https".data, n, (pySplitParams M).1, (pySplitParams M).2, q, f⟩ := by
    simp only [pyUrlparse, hsplit_t, hF, hQ]
  have hhost : normHost t = n := by
    unfold normHost
    rw [hnormpref, hparse]
    show wwwStrip (lowerL n) = n
    rw [hlow]
    unfold wwwStrip
    rw [hwww]
    simp
  have hcore : normCore t =
      pyUrlunparse "https".data (normHost t)
        (if (pyUrlparse [] (normPrefixed t)).path = ['/'] then []
         else (pyUrlparse [] (normPrefixed t)).path)
        (pyUrlparse [] (normPrefixed t)).params
        (pyUrlparse [] (normPrefixed t)).query
        (pyUrlparse [] (normPrefixed t)).fragment := by
    simp only [normCore]
    rw [if_neg hstrip_ne]
  rw [hcore, hnormpref, hparse, hhost]
  show pyUrlunparse "https".data n
    (if (pySplitParams M).1 = ['/'] then [] else (pySplitParams M).1)
    (pySplitParams M).2 q f = t
  rw [unparse_netloc_form n _ _ q f hn, hMsplit]
  exact ht.symm


theorem mem_takeWhile_mem {p : Char → Bool} {l : List Char} {c : Char}
    (h : c ∈ l.takeWhile p) : c ∈ l :=
  (List.takeWhile_prefix p).subset h

theorem mem_dropWhile_mem {p : Char → Bool} {l : List Char} {c : Char}
    (h : c ∈ l.dropWhile p) : c ∈ l :=
  (List.dropWhile_sublist p).subset h

theorem splitOnFirst_fst_mem {c x : Char} {l : List Char}
    (h : x ∈ (splitOnFirst c l).1) : x ∈ l ∧ x ≠ c := by
  simp only [splitOnFirst] at h
  refine ⟨mem_takeWhile_mem h, ?_⟩
  simpa using List.mem_takeWhile_imp h

theorem splitOnFirst_snd_mem {c x : Char} {l : List Char}
    (h : x ∈ (splitOnFirst c l).2) : x ∈ l := by
  simp only [splitOnFirst] at h
  exact mem_dropWhile_mem (List.mem_of_mem_drop h)

theorem head?_takeWhile {p : Char → Bool} {l : List Char} {c : Char}
    (h : (l.takeWhile p).head? = some c) : l.head? = some c := by
  cases l with
  | nil => cases h
  | cons a tl =>
    rw [List.takeWhile_cons] at h
    by_cases hp : p a = true
    · rw [if_pos hp] at h
      simpa using h
    · rw [if_neg hp] at h
      cases h

theorem lowerL_wwwStrip_lowerL (x : List Char) :
    lowerL (wwwStrip (lowerL x)) = wwwStrip (lowerL x) := by
  unfold wwwStrip
  split
  · show lowerL ((lowerL x).drop 4) = (lowerL x).drop 4
    simp only [lowerL, List.map_drop, List.map_map]
    congr 1
    rw [← List.map_map]
    exact lowerL_idem x
  · exact lowerL_idem x

theorem path0_head (D : List Char)
    (hD : D = [] ∨ ∃ c tl, D = c :: tl ∧ stopC c = true) :
    (splitOnFirst '?' (splitOnFirst '#' D).1).1 = [] ∨
    (splitOnFirst '?' (splitOnFirst '#' D).1).1.head? = some '/' := by
  cases hP0 : (splitOnFirst '?' (splitOnFirst '#' D).1).1 with
  | nil => exact Or.inl rfl
  | cons a tl =>
    right
    have hmem : a ∈ (splitOnFirst '?' (splitOnFirst '#' D).1).1 := by
      rw [hP0]
      exact List.mem_cons_self _ _
    have ha_q : a ≠ '?' := (splitOnFirst_fst_mem hmem).2
    have ha_f : a ≠ '#' := (splitOnFirst_fst_mem (splitOnFirst_fst_mem hmem).1).2
    have h1 : (splitOnFirst '#' D).1.head? = some a := by
      apply head?_takeWhile (p := fun x => decide (x ≠ '?'))
      have e : (splitOnFirst '?' (splitOnFirst '#' D).1).1 =
          ((splitOnFirst '#' D).1).takeWhile (fun x => decide (x ≠ '?')) := rfl
      rw [← e, hP0]
      rfl
    have h2 : D.head? = some a := by
      apply head?_takeWhile (p := fun x => decide (x ≠ '#'))
      have e : (splitOnFirst '#' D).1 =
          D.takeWhile (fun x => decide (x ≠ '#')) := rfl
      rw [← e, h1]
    rcases hD with h | ⟨c, tl2, hDe, hstop⟩
    · rw [h] at h2
      cases h2
    · rw [hDe] at h2
      simp only [List.head?_cons, Option.some.injEq] at h2
      have hstopa : stopC a = true := h2 ▸ hstop
      have ha : a = '/' := by
        simp only [stopC, Bool.or_eq_true, decide_eq_true_eq] at hstopa
        rcases hstopa with (h | h) | h
        · exact h
        · exact absurd h ha_q
        · exact absurd h ha_f
      rw [ha]
      rfl

theorem mergedPath_mem {c : Char} {p par : List Char}
    (h : c ∈ mergedPath p par) : c = '/' ∨ c = ';' ∨ c ∈ p ∨ c ∈ par := by
  simp only [mergedPath] at h
  split at h <;> split at h
  · rcases List.mem_cons.mp h with h | h
    · exact Or.inl h
    · rcases List.mem_append.mp h with h | h
      · exact Or.inr (Or.inr (Or.inl h))
      · rcases List.mem_cons.mp h with h | h
        · exact Or.inr (Or.inl h)
        · exact Or.inr (Or.inr (Or.inr h))
  · rcases List.mem_append.mp h with h | h
    · exact Or.inr (Or.inr (Or.inl h))
    · rcases List.mem_cons.mp h with h | h
      · exact Or.inr (Or.inl h)
      · exact Or.inr (Or.inr (Or.inr h))
  · rcases List.mem_cons.mp h with h | h
    · exact Or.inl h
    · exact Or.inr (Or.inr (Or.inl h))
  · exact Or.inr (Or.inr (Or.inl h))

theorem mergedPath_head (p par : List Char) :
    mergedPath p par = [] ∨ (mergedPath p par).head? = some '/' := by
  simp only [mergedPath]
  cases hm : (if par ≠ [] then p ++ ';' :: par else p) with
  | nil =>
    left
    simp
  | cons a tl =>
    right
    by_cases ha : a = '/'
    · subst ha
      simp
    · simp [ha]


theorem normCore_idem (s : List Char)
    (hhost : normHost s ≠ [])
    (hwww : isPrefixL "www.".data (normHost s) = false)
    (hstrip : stripL (normCore s) = normCore s) :
    normCore (normCore s) = normCore s := by
  have hs0 : stripL s ≠ [] := by
    intro h
    apply hhost
    simp only [normHost, normPrefixed, h]
    decide
  obtain ⟨sch, r, hschOr, hpref⟩ := normPrefixed_form s
  have hsplit1 := pyUrlsplit_scheme_form sch r hschOr
  set rF := r.filter (fun c => !unsafeC c) with hrF
  set N0 := rF.takeWhile (fun c => !stopC c) with hN0
  set D := rF.dropWhile (fun c => !stopC c) with hD
  set F1 := (splitOnFirst '#' D).1 with hF1
  set F2 := (splitOnFirst '#' D).2 with hF2
  set P0 := (splitOnFirst '?' F1).1 with hP0
  set Q0 := (splitOnFirst '?' F1).2 with hQ0
  set p := (pySplitParams P0).1 with hp
  set par := (pySplitParams P0).2 with hpar
  set pC := (if p = ['/'] then [] else p) with hpC
  have hP : pyUrlparse [] (normPrefixed s) = ⟨sch, N0, p, par, Q0, F2⟩ := by
    rw [hpref]
    simp only [pyUrlparse, hsplit1]
  have hrF_uns : ∀ c ∈ rF, unsafeC c = false := by
    intro c hc
    rw [hrF] at hc
    have := (List.mem_filter.mp hc).2
    simpa using this
  have hD_cases : D = [] ∨ ∃ c tl, D = c :: tl ∧ stopC c = true := by
    cases hDe : D with
    | nil => exact Or.inl rfl
    | cons c tl =>
      right
      refine ⟨c, tl, rfl, ?_⟩
      have hdw : rF.dropWhile (fun c => !stopC c) = c :: tl := by
        rw [← hD]
        exact hDe
      have := dropWhile_head_false hdw
      simpa using this
  have hx_head : P0 = [] ∨ P0.head? = some '/' := path0_head D hD_cases
  have hP0_mem : ∀ c ∈ P0, c ∈ rF ∧ c ≠ '?' ∧ c ≠ '#' := by
    intro c hc
    have h1 := splitOnFirst_fst_mem hc
    have h2 := splitOnFirst_fst_mem h1.1
    exact ⟨mem_dropWhile_mem h2.1, h1.2, h2.2⟩
  have hQ0_mem : ∀ c ∈ Q0, c ∈ rF ∧ c ≠ '#' := by
    intro c hc
    have h1 := splitOnFirst_snd_mem hc
    have h2 := splitOnFirst_fst_mem h1
    exact ⟨mem_dropWhile_mem h2.1, h2.2⟩
  have hF2_mem : ∀ c ∈ F2, c ∈ rF := fun c hc =>
    mem_dropWhile_mem (splitOnFirst_snd_mem hc)
  have hspec := pySplitParams_spec P0
  have hp_mem : ∀ c ∈ p, c ∈ P0 := hspec.1
  have hpar_mem : ∀ c ∈ par, c ∈ P0 ∧ c ≠ '/' := hspec.2.1
  have hMsplit := mergedPath_resplit p par
    (fun c hc => (hpar_mem c hc).2)
    hspec.2.2.1
    (fun hne => by
      rw [hspec.2.2.2.1 hne])
    (fun hne => by
      rw [hspec.2.2.2.2 hne]
      rcases hx_head with h | h
      · exfalso
        cases hpe : p with
        | nil => exact hne hpe
        | cons a tl =>
          have : a ∈ P0 := hp_mem a (by rw [hpe]; exact List.mem_cons_self _ _)
          rw [h] at this
          cases this
      · exact h)
  have hn_form : normHost s = wwwStrip (lowerL N0) := by
    unfold normHost
    rw [hP]
  have hn_mem : ∀ c ∈ normHost s, ∃ d ∈ N0, c = pyToLower d := by
    intro c hc
    rw [hn_form] at hc
    have hc' : c ∈ lowerL N0 := by
      unfold wwwStrip at hc
      split at hc
      · exact List.mem_of_mem_drop hc
      · exact hc
    obtain ⟨d, hd, he⟩ := List.mem_map.mp hc'
    exact ⟨d, hd, he.symm⟩
  have hN0_stop : ∀ d ∈ N0, stopC d = false := by
    intro d hd
    rw [hN0] at hd
    have := List.mem_takeWhile_imp hd
    simpa using this
  have hN0_rF : ∀ d ∈ N0, d ∈ rF := by
    intro d hd
    rw [hN0] at hd
    exact mem_takeWhile_mem hd
  have hnstop : ∀ c ∈ normHost s, stopC c = false := by
    intro c hc
    obtain ⟨d, hd, he⟩ := hn_mem c hc
    rw [he]
    exact stopC_pyToLower d (hN0_stop d hd)
  have hnuns : ∀ c ∈ normHost s, unsafeC c = false := by
    intro c hc
    obtain ⟨d, hd, he⟩ := hn_mem c hc
    rw [he]
    exact unsafeC_pyToLower d (hrF_uns d (hN0_rF d hd))
  have hlow : lowerL (normHost s) = normHost s := by
    rw [hn_form]
    exact lowerL_wwwStrip_lowerL N0
  have hpC_mem : ∀ c ∈ pC, c ∈ P0 := by
    intro c hc
    rw [hpC] at hc
    split at hc
    · cases hc
    · exact hp_mem c hc
  have hM_mem : ∀ c ∈ mergedPath pC par, c = '/' ∨ c = ';' ∨ c ∈ P0 := by
    intro c hc
    rcases mergedPath_mem hc with h | h | h | h
    · exact Or.inl h
    · exact Or.inr (Or.inl h)
    · exact Or.inr (Or.inr (hpC_mem c h))
    · exact Or.inr (Or.inr (hpar_mem c h).1)
  have hMuns : ∀ c ∈ mergedPath pC par, unsafeC c = false := by
    intro c hc
    rcases hM_mem c hc with h | h | h
    · rw [h]; decide
    · rw [h]; decide
    · exact hrF_uns c (hP0_mem c h).1
  have hMq : ∀ c ∈ mergedPath pC par, c ≠ '?' := by
    intro c hc
    rcases hM_mem c hc with h | h | h
    · rw [h]; decide
    · rw [h]; decide
    · exact (hP0_mem c h).2.1
  have hMf : ∀ c ∈ mergedPath pC par, c ≠ '#' := by
    intro c hc
    rcases hM_mem c hc with h | h | h
    · rw [h]; decide
    · rw [h]; decide
    · exact (hP0_mem c h).2.2
  have hMhead := mergedPath_head pC par
  have hquns : ∀ c ∈ Q0, unsafeC c = false := fun c hc =>
    hrF_uns c (hQ0_mem c hc).1
  have hqf : ∀ c ∈ Q0, c ≠ '#' := fun c hc => (hQ0_mem c hc).2
  have hfuns : ∀ c ∈ F2, unsafeC c = false := fun c hc =>
    hrF_uns c (hF2_mem c hc)
  have hcore : normCore s = pyUrlunparse "https".data (normHost s) pC par Q0 F2 := by
    simp only [normCore]
    rw [if_neg hs0, hP]
  have ht : normCore s = "https".data ++ ':' :: '/' :: '/' ::
      (normHost s ++ mergedPath pC par ++ optPrefixed '?' Q0 ++
        optPrefixed '#' F2) := by
    rw [hcore, unparse_netloc_form _ _ _ _ _ hhost]
  exact normCore_fixed (normHost s) (mergedPath pC par) Q0 F2 (normCore s)
    hhost hlow hwww hnstop hnuns hMuns hMq hMf hMhead hquns hqf hfuns
    hMsplit ht hstrip


/-- C5 (counterexample): `normalize_url` is not idempotent.  For the input
`"www.www.example.com"` the first pass keeps the host `www.example.com`
(only one leading `www.` is stripped), and a second pass strips the next
`www.`, yielding a different string. -/
theorem C5_normalize_url_counterexample :
    normalize_url "www.www.example.com" = "https://www.example.com" ∧
    normalize_url (normalize_url "www.www.example.com") = "https://example.com" ∧
    normalize_url (normalize_url "www.www.example.com") ≠
      normalize_url "www.www.example.com" := by
  decide

/-- C5 (amended): `normalize_url` maps `"site.com"`, `"www.site.com"` and
`"http://site.com"` to `"https://site.com"` and
`"  https://www.GOOGLE.com/  "` to `"https://google.com"`; empty,
whitespace-only or `None` input yields `""`; and a second application is the
identity on any output whose host came out non-empty and free of a further
leading `www.` and which is free of leading/trailing whitespace — the
counterexample `"www.www.example.com"` shows the `www.` proviso is
necessary, so unconditional idempotence fails. -/
theorem C5_normalize_url_amended :
    normalize_url "site.com" = "https://site.com" ∧
    normalize_url "www.site.com" = "https://site.com" ∧
    normalize_url "http://site.com" = "https://site.com" ∧
    normalize_url "  https://www.GOOGLE.com/  " = "https://google.com" ∧
    normalize_url "" = "" ∧
    normalize_url "   " = "" ∧
    normalize_url_py none = "" ∧
    (∀ s : String, normHost s.data ≠ [] →
      isPrefixL "www.".data (normHost s.data) = false →
      stripL (normCore s.data) = normCore s.data →
      normalize_url (normalize_url s) = normalize_url s) := by
  refine ⟨by decide, by decide, by decide, by decide, rfl, by decide, rfl, ?_⟩
  intro s h1 h2 h3
  show String.mk (normCore (String.mk (normCore s.data)).data) =
    String.mk (normCore s.data)
  exact congrArg String.mk (normCore_idem s.data h1 h2 h3)

theorem C5_normalize_url_amended_witness :
    normHost "site.com".data ≠ [] ∧
    isPrefixL "www.".data (normHost "site.com".data) = false ∧
    stripL (normCore "site.com".data) = normCore "site.com".data ∧
    normalize_url (normalize_url "site.com") = normalize_url "site.com" :=
  ⟨by decide, by decide, by decide,
   C5_normalize_url_amended.2.2.2.2.2.2.2 "site.com"
     (by decide) (by decide) (by decide)⟩

end Bot
